import Mathlib

/-!
# drone-s3-sync: the job planner and the job executor of `plugin.go`

A shallow embedding of `src/plugin.go`.

* Go strings are modelled as lists of characters (`Str`).  Every byte the code
  inspects (`/` and `.`) is ASCII, so working on code points instead of UTF-8
  bytes changes nothing.
* `os.PathSeparator` is `/` (the plugin runs in a Linux container).
* `strings.TrimPrefix`, `filepath.Clean` and `filepath.Join` are transcribed from
  the Go standard library (Unix flavour).
* `os.Exit(1)` is modelled by the result `none`.
* The external collaborators (`client.List`, `filepath.Walk`, `os.Getwd`) are
  inputs: what they returned is passed in.
-/

namespace S3Sync

/-- Go strings, as lists of characters. -/
abbrev Str := List Char

/-! ## Standard library: `strings` and `path/filepath` -/

/-- The constant `os.PathSeparator`. -/
def PathSeparator : Char := '/'

/-- The string `string(os.PathSeparator)`. -/
def sep : Str := [PathSeparator]

/-- Go `os.IsPathSeparator`. -/
def IsPathSeparator (c : Char) : Bool := c == PathSeparator

/-- Go `strings.TrimPrefix(s, pre)`: `s` without the leading `pre` when `s` starts
with `pre`, and `s` unchanged otherwise. -/
def TrimPrefix (s pre : Str) : Str :=
  if pre.isPrefixOf s then s.drop pre.length else s

/-- The test `r+k == n || os.IsPathSeparator(path[r+k])` of `filepath.Clean`, on the
unread part `path[r+k:]`. -/
def endOrSep : Str → Bool
  | [] => true
  | c :: _ => IsPathSeparator c

/-- The backtracking loop of the `..` case of `filepath.Clean`:
`for out.w > dotdot && !os.IsPathSeparator(out.index(out.w)) { out.w-- }`,
started at the write index `w` and returning the final write index. -/
def backtrack (buf : Str) (dotdot : Nat) : Nat → Nat
  | 0 => 0
  | w + 1 =>
    if w + 1 > dotdot && !IsPathSeparator (buf.getD (w + 1) PathSeparator) then
      backtrack buf dotdot w
    else w + 1

/-- The step "add slash if needed" of the real-element case of `filepath.Clean`:
`if rooted && out.w != 1 || !rooted && out.w != 0 { out.append(Separator) }`. -/
def addSlash (rooted : Bool) (out : Str) : Str :=
  if (rooted && out.length != 1) || (!rooted && out.length != 0) then
    out ++ [PathSeparator]
  else out

/-- The condition `!os.IsPathSeparator(path[r])` of the loop that copies an element. -/
def notSep (c : Char) : Bool := !IsPathSeparator c

/-- The main loop `for r < n { switch ... }` of `filepath.Clean`.  The arguments are
the unread part `path[r:]`, the written part `out` (the lazy buffer up to `out.w`)
and `dotdot`; the result is the final `out` and `dotdot`.  Every iteration reads at
least one byte, so `fuel = len(path)` iterations are always enough
(see `cleanLoop_fuel`). -/
def cleanLoop (rooted : Bool) : Nat → Str → Str → Nat → Str × Nat
  | 0, _, out, dotdot => (out, dotdot)
  | _ + 1, [], out, dotdot => (out, dotdot)
  | fuel + 1, c :: rest, out, dotdot =>
    if IsPathSeparator c then
      -- empty path element
      cleanLoop rooted fuel rest out dotdot
    else if c == '.' && endOrSep rest then
      -- . element
      cleanLoop rooted fuel rest out dotdot
    else if c == '.' && rest.head? == some '.' && endOrSep rest.tail then
      -- .. element: remove to last separator
      if out.length > dotdot then
        cleanLoop rooted fuel rest.tail
          (out.take (backtrack out dotdot (out.length - 1))) dotdot
      else if !rooted then
        let out1 := (if out.length > 0 then out ++ [PathSeparator] else out) ++ ['.', '.']
        cleanLoop rooted fuel rest.tail out1 out1.length
      else
        cleanLoop rooted fuel rest.tail out dotdot
    else
      -- real path element: add slash if needed, then copy the element
      cleanLoop rooted fuel ((c :: rest).dropWhile notSep)
        (addSlash rooted out ++ (c :: rest).takeWhile notSep) dotdot

/-- Go `filepath.Clean` (Unix: no volume name). -/
def Clean (path : Str) : Str :=
  match path with
  | [] => ['.']
  | c :: rest =>
    let st :=
      if IsPathSeparator c then cleanLoop true (c :: rest).length rest [PathSeparator] 1
      else cleanLoop false (c :: rest).length (c :: rest) [] 0
    -- Turn empty string into "."
    if st.1.length = 0 then ['.'] else st.1

/-- Go `filepath.Join(elem...)`: the elements from the first non-empty one on are
joined with the separator and cleaned; the result is empty when every element is. -/
def Join : List Str → Str
  | [] => []
  | e :: es => if e ≠ [] then Clean (sep.intercalate (e :: es)) else Join es

/-- A file name as a directory holds it: not empty, without a separator, and neither
`.` nor `..`. -/
def isName (n : Str) : Bool :=
  !n.isEmpty && n.all notSep && n != ['.'] && n != ['.', '.']

/-- The names, each after a separator: `/n1/n2/.../nk`. -/
def slashJoin : List Str → Str
  | [] => []
  | n :: ns => PathSeparator :: (n ++ slashJoin ns)

/-- A relative key as the walk yields it: file names joined by separators
(a cleaned relative path without `..`). -/
def isRelKey (k : Str) : Bool :=
  (k.splitOn PathSeparator).all isName

/-- The path Go `filepath.Walk` gives to the callback for the file reached from `root`
through the directory entries `names`: `walk` builds it with
`filename := Join(path, name)` at every level. -/
def walkPath (root : Str) : List Str → Str
  | [] => root
  | n :: ns => walkPath (Join [root, n]) ns

/-- The output of the loop of `Clean` after the names have been copied one by one,
each after the separator `addSlash` decides on. -/
def namesOut (rooted : Bool) : Str → List Str → Str
  | out, [] => out
  | out, n :: ns => namesOut rooted (addSlash rooted out ++ n) ns

/-! ## Data model -/

/-- The Go `job` struct (the field `local` is called `localPath`: `local` is a
keyword). -/
structure job where
  localPath : Str
  remote : Str
  action : Str
  deriving DecidableEq, Repr

/-- The fields of the Go `Plugin` struct that the planner and the executor read. -/
structure Plugin where
  Bucket : Str
  Source : Str
  Target : Str
  Delete : Bool
  /-- The Go map `Redirects`, as its entries in the order `range` yields them. -/
  Redirects : List (Str × Str)
  CloudFrontDistribution : Str
  MaxConcurrency : Nat
  jobs : List job
  deriving DecidableEq, Repr

/-- The zero value of `job`: what `make([]job, 1, 1)` puts at index 0. -/
def zeroJob : job := ⟨[], [], []⟩

/-- One call of the `filepath.Walk` callback: the visited path, `info.IsDir()` and
whether `err != nil`. -/
structure WalkEntry where
  path : Str
  isDir : Bool
  err : Bool
  deriving DecidableEq, Repr

/-! ## `sanitizeInputs` -/

/-- Go `Plugin.sanitizeInputs`; `wd` is what `os.Getwd` returned (`none` for an
error).  The result is `none` when an error is returned. -/
def sanitizeInputs (p : Plugin) (wd : Option Str) : Option Plugin :=
  if p.Bucket.length = 0 then none
  else
    match wd with
    | none => none
    | some wd =>
      some { p with
        Source := Join [wd, p.Source]
        Target := TrimPrefix (Join [p.Target]) sep }

/-! ## `createSyncJobs` -/

/-- The relative key `localPath` computed by the walk callback. -/
def relKey (source path : Str) : Str :=
  if source ≠ ".".toList then TrimPrefix (TrimPrefix path source) sep else path

/-- The walk callback of `createSyncJobs` on the state `(local, p.jobs)`; `none` when
it returns a non-nil error. -/
def walkFn (source target : Str) (st : List Str × List job) (e : WalkEntry) :
    Option (List Str × List job) :=
  if e.err then none
  else if e.isDir then some st
  else
    let localPath := relKey source e.path
    some (st.1 ++ [localPath],
      st.2 ++ [{ localPath := Join [source, localPath],
                  remote := Join [target, localPath],
                  action := "upload".toList }])

/-- Go `filepath.Walk` driving the callback over the visited entries: it stops at the
first non-nil error the callback returns. -/
def walkAll (source target : Str) : List Str × List job → List WalkEntry →
    Option (List Str × List job)
  | st, [] => some st
  | st, e :: es =>
    match walkFn source target st e with
    | none => none
    | some st1 => walkAll source target st1 es

/-- The loop `for path, location := range p.Redirects`. -/
def redirectLoop : List Str × List job → List (Str × Str) → List Str × List job
  | st, [] => st
  | st, (path, location) :: ds =>
    let path1 := TrimPrefix path sep
    redirectLoop
      (st.1 ++ [path1],
       st.2 ++ [{ localPath := path1, remote := location, action := "redirect".toList }]) ds

/-- The stripped key `matcher` of a listed remote key. -/
def matcherOf (target r : Str) : Str :=
  TrimPrefix (TrimPrefix r target) sep

/-- The inner loop `for _, l := range local { if l == matcher { found = true; break } }`. -/
def found (matcher : Str) : List Str → Bool
  | [] => false
  | l :: ls => if l = matcher then true else found matcher ls

/-- The loop `for _, r := range remote` of the delete pass. -/
def deleteLoop (target : Str) (loc : List Str) : List job → List Str → List job
  | jobs, [] => jobs
  | jobs, r :: rs =>
    if !found (matcherOf target r) loc then
      deleteLoop target loc
        (jobs ++ [{ localPath := [], remote := r, action := "delete".toList }]) rs
    else deleteLoop target loc jobs rs

/-- Go `Plugin.createSyncJobs`.  `listed` is the result of `p.client.List(p.Target)`
(`none` for an error), `walked` the entries `filepath.Walk(p.Source, ...)` visits.
The result is `none` when the function calls `os.Exit(1)`. -/
def createSyncJobs (p : Plugin) (listed : Option (List Str)) (walked : List WalkEntry) :
    Option Plugin :=
  match listed with
  | none => none
  | some remote =>
    -- local := make([]string, 1, 1)
    let loc0 : List Str := [[]]
    match walkAll p.Source p.Target (loc0, p.jobs) walked with
    | none => none
    | some st1 =>
      let st2 := redirectLoop st1 p.Redirects
      if p.Delete then
        some { p with jobs := deleteLoop p.Target st2.1 st2.2 remote }
      else
        some { p with jobs := st2.2 }

/-! ## `createInvalidateJob` and the planning part of `Exec` -/

/-- Go `Plugin.createInvalidateJob`. -/
def createInvalidateJob (p : Plugin) : Plugin :=
  if p.CloudFrontDistribution.length > 0 then
    { p with jobs := p.jobs ++
        [{ localPath := [], remote := "/*".toList, action := "invalidateCloudFront".toList }] }
  else p

/-- The world `Exec` runs in: the working directory, the remote listing for a prefix
and the entries a walk of a root visits. -/
structure World where
  Getwd : Option Str
  ClientList : Str → Option (List Str)
  Walk : Str → List WalkEntry

/-- Go `Plugin.Exec` up to the call of `runJobs`: the plugin with the job list that is
handed to `runJobs`, or `none` when the process exits with status 1 before. -/
def planJobs (p : Plugin) (w : World) : Option Plugin :=
  match sanitizeInputs p w.Getwd with
  | none => none
  | some p1 =>
    -- p.jobs = make([]job, 1, 1)
    let p2 := { p1 with jobs := [zeroJob] }
    match createSyncJobs p2 (w.ClientList p2.Target) (w.Walk p2.Source) with
    | none => none
    | some p3 => some (createInvalidateJob p3)

/-! ## The jobs `createSyncJobs` emits, named -/

/-- The upload job the walk callback emits for a visited regular file. -/
def uploadJob (source target : Str) (e : WalkEntry) : job :=
  { localPath := Join [source, relKey source e.path],
    remote := Join [target, relKey source e.path],
    action := "upload".toList }

/-- The redirect job emitted for one entry of `Redirects`. -/
def redirectJob (d : Str × Str) : job :=
  { localPath := TrimPrefix d.1 sep, remote := d.2, action := "redirect".toList }

/-- The delete job emitted for a listed remote key. -/
def deleteJob (r : Str) : job :=
  { localPath := [], remote := r, action := "delete".toList }

/-- The visited entries that are regular files (`info.IsDir()` is false). -/
def regular (walked : List WalkEntry) : List WalkEntry :=
  walked.filter (fun e => !e.isDir)

/-- The relative keys of the visited regular files: `keys(L)`. -/
def localKeys (source : Str) (walked : List WalkEntry) : List Str :=
  (regular walked).map (fun e => relKey source e.path)

/-- The redirect source keys with one leading separator removed: `sources(D)`. -/
def redirectKeys (ds : List (Str × Str)) : List Str :=
  ds.map (fun d => TrimPrefix d.1 sep)

/-- The listed keys that the delete pass turns into delete jobs. -/
def deleted (target : Str) (loc : List Str) (remote : List Str) : List Str :=
  remote.filter (fun r => !found (matcherOf target r) loc)

/-! ## Concrete inputs for the examples -/

/-- A world for the examples: the working directory is `/drone/src`, every prefix lists
`listed`, and a walk visits its root, a directory, and then the regular files `files`
below it. -/
def exWorld (listed : List Str) (files : List Str) : World :=
  { Getwd := some "/drone/src".toList
    ClientList := fun _ => some listed
    Walk := fun root =>
      ⟨root, true, false⟩ :: files.map (fun f => ⟨root ++ sep ++ f, false, false⟩) }

/-- A configuration for the examples: bucket `bucket`, source `public`, no CloudFront
distribution. -/
def exPlugin (target : Str) (del : Bool) (redirects : List (Str × Str)) : Plugin :=
  { Bucket := "bucket".toList, Source := "public".toList, Target := target, Delete := del,
    Redirects := redirects, CloudFrontDistribution := [], MaxConcurrency := 2, jobs := [] }

/-- The plugin as `Exec` hands it to `createSyncJobs` in the examples: source
`/drone/src/public`, the job list of `make([]job, 1, 1)`. -/
def exSynced (target : Str) (del : Bool) (redirects : List (Str × Str)) : Plugin :=
  { Bucket := "bucket".toList, Source := "/drone/src/public".toList, Target := target,
    Delete := del, Redirects := redirects, CloudFrontDistribution := [], MaxConcurrency := 2,
    jobs := [zeroJob] }

/-- The entries a walk of `/drone/src/public` visits when it holds the regular files
`files`. -/
def exWalked (files : List Str) : List WalkEntry :=
  (exWorld [] files).Walk "/drone/src/public".toList

/-- The example configuration `exPlugin` with target `site`, `Delete` and the
CloudFront distribution `E2EXAMPLE`. -/
def exPluginCF : Plugin :=
  { exPlugin "site".toList true [] with CloudFrontDistribution := "E2EXAMPLE".toList }

/-- The plugin `Exec` hands to `runJobs` for `exPluginCF` when the local tree is
`a.txt` and the listing is `site/old.txt`. -/
def exPlannedCF : Plugin :=
  { Bucket := "bucket".toList, Source := "/drone/src/public".toList, Target := "site".toList,
    Delete := true, Redirects := [], CloudFrontDistribution := "E2EXAMPLE".toList,
    MaxConcurrency := 2,
    jobs := [zeroJob,
      ⟨"/drone/src/public/a.txt".toList, "site/a.txt".toList, "upload".toList⟩,
      ⟨[], "site/old.txt".toList, "delete".toList⟩,
      ⟨[], "/*".toList, "invalidateCloudFront".toList⟩] }

/-! ## Two properties as the specification words them -/

/-- The idempotence property as the specification words it: when the listing is
exactly the upload keys together with the redirect targets, no delete job is in the
list. -/
def IdempotentAsSpecified (p : Plugin) (walked : List WalkEntry) (remote : List Str) : Prop :=
  (∀ r, r ∈ remote ↔
      (∃ e ∈ regular walked, r = Join [p.Target, relKey p.Source e.path]) ∨
      (∃ d ∈ p.Redirects, r = d.2)) →
  ∀ p1, createSyncJobs p (some remote) walked = some p1 →
    ∀ j ∈ p1.jobs, j.action ≠ "delete".toList

/-- Delete completeness as the specification words it: every listed key that is
`join(Target, k)` for no local key or redirect source key `k` gets a delete job. -/
def DeleteCompleteAsSpecified (p : Plugin) (walked : List WalkEntry) (remote : List Str) :
    Prop :=
  ∀ p1, createSyncJobs p (some remote) walked = some p1 →
    ∀ r ∈ remote,
      (∀ k ∈ localKeys p.Source walked ++ redirectKeys p.Redirects, r ≠ Join [p.Target, k]) →
      ∃ j ∈ p1.jobs, j.action = "delete".toList ∧ j.remote = r

/-! ## `runJobs`: an interleaving model

`runJobs` starts one goroutine per job and then collects the results.  The model is a
step function: a schedule (a list of labels) says which thread takes the next step, the
main goroutine or the goroutine of job `i`; a step that is blocked (a full or empty
channel) or a thread that has ended gives `none`.  The outcome of the client calls is
part of the configuration, so that the properties hold for every outcome and every
schedule. -/

/-- A call of the remote-store client. -/
inductive ClientCall where
  | Upload (localPath remote : Str)
  | Redirect (localPath remote : Str)
  | Delete (remote : Str)
  | Invalidate (remote : Str)
  deriving DecidableEq, Repr

/-- The client call the goroutine of a job issues, chosen by the `if`/`else if` chain
on `j.action`; `none` for `invalidateCloudFront` and for every other action. -/
def callOf (j : job) : Option ClientCall :=
  if j.action = "upload".toList then some (ClientCall.Upload j.localPath j.remote)
  else if j.action = "redirect".toList then some (ClientCall.Redirect j.localPath j.remote)
  else if j.action = "delete".toList then some (ClientCall.Delete j.remote)
  else none

/-- What is fixed during a run: the job list, `p.MaxConcurrency`, and the outcome of the
client calls (`fails i`: the call for job `i` returns an error; `invalidateFails`:
`client.Invalidate` returns an error). -/
structure RunConfig where
  jobs : List job
  MaxConcurrency : Nat
  fails : Nat → Bool
  invalidateFails : Bool

/-- Where the goroutine of a job is: started, inside its client call, past the call
with the value of `err`, past `results <- &result{j, err}`, past `<-jobChan`. -/
inductive Phase where
  | started
  | calling
  | returned (err : Bool)
  | sent
  | released
  deriving DecidableEq, Repr

/-- Where the main goroutine is: in the dispatch loop before job `i`, in the dispatch
loop between `jobChan <- struct{}{}` and `go func(j)` for job `i`, in the collect loop,
inside `client.Invalidate`, at the end of `runJobs`, or gone through `os.Exit(1)`. -/
inductive MainPc where
  | dispatch (i : Nat)
  | spawn (i : Nat)
  | collect
  | invalidating
  | finished
  | exited
  deriving DecidableEq, Repr

/-- What can be observed of a run. -/
inductive Event where
  | call (i : Nat) (c : ClientCall)
  | ret (i : Nat) (err : Bool)
  | invalidate (remote : Str)
  | exit
  deriving DecidableEq, Repr

/-- The state of a run of `runJobs`. -/
structure RunState where
  pc : MainPc
  /-- The number of elements in the channel `jobChan`. -/
  slots : Nat
  /-- The goroutines started so far; goroutine `i` runs `p.jobs[i]`. -/
  workers : List Phase
  /-- The channel `results`, oldest first: the index of the job and `err != nil`. -/
  results : List (Nat × Bool)
  /-- The results the collect loop has received, most recent first. -/
  collected : List (Nat × Bool)
  /-- The variable `invalidateJob`. -/
  invalidateJob : Option job
  /-- The events so far, most recent first. -/
  trace : List Event
  deriving DecidableEq, Repr

/-- The state at the start of the dispatch loop. -/
def RunState.init : RunState :=
  { pc := MainPc.dispatch 0, slots := 0, workers := [], results := [], collected := [],
    invalidateJob := none, trace := [] }

/-- One step of the main goroutine. -/
def stepMain (c : RunConfig) (s : RunState) : Option RunState :=
  match s.pc with
  | MainPc.dispatch i =>
    if i < c.jobs.length then
      -- jobChan <- struct{}{} (blocks while the channel is full)
      if s.slots < c.MaxConcurrency then
        some { s with slots := s.slots + 1, pc := MainPc.spawn i }
      else none
    else some { s with pc := MainPc.collect }
  | MainPc.spawn i =>
    -- go func(j job) { ... }(j)
    some { s with workers := s.workers ++ [Phase.started], pc := MainPc.dispatch (i + 1) }
  | MainPc.collect =>
    if s.collected.length < c.jobs.length then
      -- r := <-results (blocks while the channel is empty)
      match s.results with
      | [] => none
      | r :: rs =>
        if r.2 then
          some { s with results := rs, collected := r :: s.collected, pc := MainPc.exited,
                        trace := Event.exit :: s.trace }
        else some { s with results := rs, collected := r :: s.collected }
    else
      match s.invalidateJob with
      | some j =>
        some { s with pc := MainPc.invalidating, trace := Event.invalidate j.remote :: s.trace }
      | none => some { s with pc := MainPc.finished }
  | MainPc.invalidating =>
    if c.invalidateFails then
      some { s with pc := MainPc.exited, trace := Event.exit :: s.trace }
    else some { s with pc := MainPc.finished }
  | MainPc.finished => none
  | MainPc.exited => none

/-- One step of the goroutine of job `i`.  No goroutine runs after `os.Exit(1)`. -/
def stepWorker (c : RunConfig) (i : Nat) (s : RunState) : Option RunState :=
  if s.pc = MainPc.exited then none
  else
    match s.workers[i]?, c.jobs[i]? with
    | some Phase.started, some j =>
      match callOf j with
      | some call =>
        some { s with workers := s.workers.set i Phase.calling,
                      trace := Event.call i call :: s.trace }
      | none =>
        some { s with workers := s.workers.set i (Phase.returned false),
                      invalidateJob :=
                        if j.action = "invalidateCloudFront".toList then some j
                        else s.invalidateJob }
    | some Phase.calling, some _ =>
      some { s with workers := s.workers.set i (Phase.returned (c.fails i)),
                    trace := Event.ret i (c.fails i) :: s.trace }
    | some (Phase.returned err), some _ =>
      -- results <- &result{j, err} (the channel has capacity len(p.jobs))
      if s.results.length < c.jobs.length then
        some { s with workers := s.workers.set i Phase.sent, results := s.results ++ [(i, err)] }
      else none
    | some Phase.sent, some _ =>
      -- <-jobChan
      if 0 < s.slots then
        some { s with workers := s.workers.set i Phase.released, slots := s.slots - 1 }
      else none
    | _, _ => none

/-- The thread that takes a step. -/
inductive Label where
  | main
  | worker (i : Nat)
  deriving DecidableEq, Repr

/-- One step of the run. -/
def step (c : RunConfig) (l : Label) (s : RunState) : Option RunState :=
  match l with
  | Label.main => stepMain c s
  | Label.worker i => stepWorker c i s

/-- Go `Plugin.runJobs`, run along a schedule; `none` when the schedule asks for a step
that cannot be taken. -/
def runJobs (c : RunConfig) : List Label → RunState → Option RunState
  | [], s => some s
  | l :: ls, s =>
    match step c l s with
    | none => none
    | some s1 => runJobs c ls s1

/-- The states `runJobs` can be in. -/
def Reachable (c : RunConfig) (s : RunState) : Prop :=
  ∃ sched, runJobs c sched RunState.init = some s

/-- The number of client calls in flight. -/
def inFlight (s : RunState) : Nat :=
  s.workers.countP (fun ph => ph = Phase.calling)

/-- The goroutine has sent its result. -/
def isSent (ph : Phase) : Bool :=
  match ph with
  | Phase.sent => true
  | Phase.released => true
  | _ => false

/-- The goroutine still holds its slot of `jobChan`. -/
def holdsSlot (ph : Phase) : Bool :=
  match ph with
  | Phase.released => false
  | _ => true

/-- The goroutine is past the `if`/`else if` chain on the action. -/
def isPastCall (ph : Phase) : Bool :=
  match ph with
  | Phase.started => false
  | Phase.calling => false
  | _ => true

/-- The goroutine has entered the `if`/`else if` chain on the action. -/
def hasBegun (ph : Phase) : Bool :=
  match ph with
  | Phase.started => false
  | _ => true

/-- The value of `err` the goroutine of job `i` sends: the outcome of its client call,
and `nil` when it makes none. -/
def errOf (c : RunConfig) (i : Nat) : Bool :=
  match c.jobs[i]? with
  | some j => (callOf j).isSome && c.fails i
  | none => false

/-- The slot the main goroutine has taken for a goroutine it has not started yet. -/
def pendingSlot (pc : MainPc) : Nat :=
  match pc with
  | MainPc.spawn _ => 1
  | _ => 0

/-- What holds of the goroutines, the channels and the collect loop in every state of a
run. -/
structure RunInv (c : RunConfig) (s : RunState) : Prop where
  len : s.workers.length ≤ c.jobs.length
  lenDispatch : ∀ i, s.pc = MainPc.dispatch i ∨ s.pc = MainPc.spawn i →
    s.workers.length = i ∧ s.collected = []
  spawnLt : ∀ i, s.pc = MainPc.spawn i → i < c.jobs.length
  lenAfter : (∀ i, s.pc ≠ MainPc.dispatch i ∧ s.pc ≠ MainPc.spawn i) →
    s.workers.length = c.jobs.length
  slots : s.slots = s.workers.countP holdsSlot + pendingSlot s.pc
  cap : s.slots ≤ c.MaxConcurrency
  sentCount : s.results.length + s.collected.length = s.workers.countP isSent
  res : ∀ r ∈ s.results ++ s.collected,
    (∃ ph, s.workers[r.1]? = some ph ∧ isSent ph = true) ∧ r.2 = errOf c r.1
  nodup : ((s.results ++ s.collected).map Prod.fst).Nodup
  retd : ∀ (i : Nat) (e : Bool), s.workers[i]? = some (Phase.returned e) → e = errOf c i
  callg : ∀ i : Nat, s.workers[i]? = some Phase.calling →
    ∃ (j : job) (call : ClientCall), c.jobs[i]? = some j ∧ callOf j = some call
  ok : s.pc ≠ MainPc.exited → ∀ r ∈ s.collected, r.2 = false
  all : s.pc = MainPc.invalidating ∨ s.pc = MainPc.finished →
    s.collected.length = c.jobs.length
  inv : ∀ j, s.invalidateJob = some j →
    j ∈ c.jobs ∧ j.action = "invalidateCloudFront".toList

/-- What holds of the events `pre` that come before a call `client.Invalidate(r)`:
the job list holds an invalidation job with remote `r`, the client call of every
upload, redirect and delete job has been issued and has returned without error, and no
call has returned an error. -/
def InvalidateOK (c : RunConfig) (r : Str) (pre : List Event) : Prop :=
  (∃ j ∈ c.jobs, j.action = "invalidateCloudFront".toList ∧ j.remote = r) ∧
  (∀ (i : Nat) (j : job) (call : ClientCall), c.jobs[i]? = some j → callOf j = some call →
    Event.call i call ∈ pre ∧ Event.ret i false ∈ pre) ∧
  (∀ (i : Nat) (e : Bool), Event.ret i e ∈ pre → e = false)

/-- The goroutine of job `i` has been started and its phase satisfies `P`. -/
def phaseSat (l : List Phase) (i : Nat) (P : Phase → Bool) : Bool :=
  match l[i]? with
  | some ph => P ph
  | none => false

/-- What holds of the events of a run in every state. -/
structure TraceInv (c : RunConfig) (s : RunState) : Prop where
  callsMem : ∀ (i : Nat) (call : ClientCall), Event.call i call ∈ s.trace →
    phaseSat s.workers i hasBegun = true ∧ ∃ j : job, c.jobs[i]? = some j ∧ callOf j = some call
  callsLe : ∀ (i : Nat) (call : ClientCall), s.trace.count (Event.call i call) ≤ 1
  callsOne : ∀ (i : Nat) (j : job) (call : ClientCall),
    phaseSat s.workers i hasBegun = true → c.jobs[i]? = some j →
    callOf j = some call → Event.call i call ∈ s.trace
  retsMem : ∀ (i : Nat) (e : Bool), Event.ret i e ∈ s.trace →
    e = c.fails i ∧ phaseSat s.workers i isPastCall = true ∧
      ∃ (j : job) (call : ClientCall), c.jobs[i]? = some j ∧ callOf j = some call
  retsOne : ∀ (i : Nat) (j : job) (call : ClientCall),
    phaseSat s.workers i isPastCall = true → c.jobs[i]? = some j →
    callOf j = some call → Event.ret i (c.fails i) ∈ s.trace
  tail : ∀ (post : List Event) (r : Str) (pre : List Event),
    s.trace = post ++ Event.invalidate r :: pre →
    (s.pc = MainPc.invalidating ∨ s.pc = MainPc.finished ∨ s.pc = MainPc.exited) ∧
    (post = [] ∨ (post = [Event.exit] ∧ s.pc = MainPc.exited)) ∧
    InvalidateOK c r pre

/-- How far a goroutine has come: the number of steps it has taken at least. -/
def Phase.rank : Phase → Nat
  | Phase.started => 0
  | Phase.calling => 1
  | Phase.returned _ => 2
  | Phase.sent => 3
  | Phase.released => 4

/-- How far the run has come: a number that every step increases and that never
exceeds `7 * len(p.jobs) + 3`. -/
def progressOf (c : RunConfig) (s : RunState) : Nat :=
  (match s.pc with
    | MainPc.dispatch i => 2 * i
    | MainPc.spawn i => 2 * i + 1
    | MainPc.collect => 2 * c.jobs.length + 1 + s.collected.length
    | MainPc.invalidating => 3 * c.jobs.length + 2
    | MainPc.finished => 3 * c.jobs.length + 3
    | MainPc.exited => 3 * c.jobs.length + 3)
  + (s.workers.map Phase.rank).sum

/-- The configuration of the example run: the job list `Exec` builds for `exPluginCF`
(the zero-valued job, an upload, a delete and the invalidation job), two slots, no
failing call. -/
def exRunConfig : RunConfig :=
  { jobs := exPlannedCF.jobs, MaxConcurrency := 2, fails := fun _ => false,
    invalidateFails := false }

/-- The start of a run of `exRunConfig`: the goroutine of job 0 runs to its end, then
the upload and the delete are both in flight. -/
def exBusySchedule : List Label :=
  [Label.main, Label.main, Label.main, Label.main, Label.worker 0, Label.worker 0,
   Label.worker 0, Label.main, Label.main, Label.worker 1, Label.worker 2]

/-- The state `exBusySchedule` leads to. -/
def exBusy : RunState :=
  { pc := MainPc.dispatch 3, slots := 2,
    workers := [Phase.released, Phase.calling, Phase.calling],
    results := [(0, false)], collected := [], invalidateJob := none,
    trace := [Event.call 2 (ClientCall.Delete "site/old.txt".toList),
      Event.call 1 (ClientCall.Upload "/drone/src/public/a.txt".toList "site/a.txt".toList)] }

/-- A complete run of `exRunConfig`. -/
def exSchedule : List Label :=
  exBusySchedule ++
  [Label.worker 2, Label.worker 1, Label.worker 1, Label.worker 2, Label.worker 1, Label.main,
   Label.main, Label.worker 3, Label.worker 3, Label.worker 2, Label.worker 3,
   Label.main, Label.main, Label.main, Label.main, Label.main, Label.main, Label.main]

/-- The state `exSchedule` leads to. -/
def exFinished : RunState :=
  { pc := MainPc.finished, slots := 0,
    workers := [Phase.released, Phase.released, Phase.released, Phase.released],
    results := [], collected := [(3, false), (2, false), (1, false), (0, false)],
    invalidateJob := some ⟨[], "/*".toList, "invalidateCloudFront".toList⟩,
    trace := [Event.invalidate "/*".toList, Event.ret 1 false, Event.ret 2 false,
      Event.call 2 (ClientCall.Delete "site/old.txt".toList),
      Event.call 1 (ClientCall.Upload "/drone/src/public/a.txt".toList "site/a.txt".toList)] }

/-- The configuration `exRunConfig` with a delete call that fails. -/
def exFailingConfig : RunConfig :=
  { jobs := exPlannedCF.jobs, MaxConcurrency := 2, fails := fun i => i == 2,
    invalidateFails := false }

/-- A complete run of `exFailingConfig`. -/
def exFailingSchedule : List Label :=
  exBusySchedule ++
  [Label.worker 2, Label.worker 1, Label.worker 1, Label.worker 2, Label.worker 1, Label.main,
   Label.main, Label.worker 3, Label.worker 3, Label.worker 2, Label.worker 3,
   Label.main, Label.main, Label.main, Label.main]

/-- The state `exFailingSchedule` leads to. -/
def exFailed : RunState :=
  { pc := MainPc.exited, slots := 0,
    workers := [Phase.released, Phase.released, Phase.released, Phase.released],
    results := [(3, false)], collected := [(2, true), (1, false), (0, false)],
    invalidateJob := some ⟨[], "/*".toList, "invalidateCloudFront".toList⟩,
    trace := [Event.exit, Event.ret 1 false, Event.ret 2 true,
      Event.call 2 (ClientCall.Delete "site/old.txt".toList),
      Event.call 1 (ClientCall.Upload "/drone/src/public/a.txt".toList "site/a.txt".toList)] }

/-- The client calls issued for job `i` in a run, most recent first. -/
def callsFor (i : Nat) (trace : List Event) : List ClientCall :=
  trace.filterMap (fun ev =>
    match ev with
    | Event.call k call => if k = i then some call else none
    | _ => none)

/-- The client calls the goroutine of job `i` has issued, read off its phase: none
before it has entered the `if`/`else if` chain, and then the call its action chooses,
if any. -/
def issuedFor (c : RunConfig) (s : RunState) (i : Nat) : List ClientCall :=
  if phaseSat s.workers i hasBegun then
    match c.jobs[i]? with
    | some j => (callOf j).toList
    | none => []
  else []

/-- What holds of `invalidateJob` and of the ways `runJobs` ends in every state of a
run. -/
structure EndInv (c : RunConfig) (s : RunState) : Prop where
  invSet : ∀ (i : Nat) (j : job), c.jobs[i]? = some j →
    j.action = "invalidateCloudFront".toList → phaseSat s.workers i isPastCall = true →
    s.invalidateJob.isSome = true
  invd : s.pc = MainPc.invalidating → ∃ r, Event.invalidate r ∈ s.trace
  fin : s.pc = MainPc.finished →
    s.invalidateJob = none ∨ ∃ r, Event.invalidate r ∈ s.trace
  exd : s.pc = MainPc.exited →
    (∃ r ∈ s.collected, r.2 = true) ∨ ∃ r, Event.invalidate r ∈ s.trace

/-- The configuration `exRunConfig` with an upload call that fails. -/
def exAbortConfig : RunConfig :=
  { jobs := exPlannedCF.jobs, MaxConcurrency := 2, fails := fun i => i == 1,
    invalidateFails := false }

/-- A complete run of `exAbortConfig`: the upload fails and the main goroutine exits on
its result before the goroutines of the delete job and of the invalidation job have
taken a step. -/
def exAbortSchedule : List Label :=
  [Label.main, Label.main, Label.main, Label.main, Label.worker 0, Label.worker 0,
   Label.worker 0, Label.main, Label.main, Label.worker 1, Label.worker 1, Label.worker 1,
   Label.worker 1, Label.main, Label.main, Label.main, Label.main, Label.main]

/-- The state `exAbortSchedule` leads to. -/
def exAborted : RunState :=
  { pc := MainPc.exited, slots := 2,
    workers := [Phase.released, Phase.released, Phase.started, Phase.started],
    results := [], collected := [(1, true), (0, false)], invalidateJob := none,
    trace := [Event.exit, Event.ret 1 true,
      Event.call 1 (ClientCall.Upload "/drone/src/public/a.txt".toList "site/a.txt".toList)] }

end S3Sync

namespace S3Sync

/-! ## `filepath.Clean` on paths made of file names -/

theorem length_dropWhile_cons_le (q : Char → Bool) (c : Char) (rest : Str) (h : q c = true) :
    ((c :: rest).dropWhile q).length ≤ rest.length := by
  rw [List.dropWhile_cons_of_pos h]
  exact (List.dropWhile_sublist q).length_le

/-- Any fuel that is at least the length of the unread part gives the same result:
the loop of `Clean` has ended by then. -/
theorem cleanLoop_fuel_eq (rooted : Bool) (f1 f2 : Nat) (rest out : Str) (dotdot : Nat)
    (h1 : rest.length ≤ f1) (h2 : rest.length ≤ f2) :
    cleanLoop rooted f1 rest out dotdot = cleanLoop rooted f2 rest out dotdot := by
  induction f1 generalizing f2 rest out dotdot with
  | zero =>
    have : rest = [] := List.length_eq_zero.mp (Nat.le_zero.mp h1)
    subst this
    cases f2 <;> simp [cleanLoop]
  | succ f1 ih =>
    cases rest with
    | nil => cases f2 <;> simp [cleanLoop]
    | cons c rest =>
      cases f2 with
      | zero => simp at h2
      | succ f2 =>
        simp only [List.length_cons, Nat.add_le_add_iff_right] at h1 h2
        have ht : rest.tail.length ≤ rest.length := by simp
        simp only [cleanLoop]
        have hq : ¬ IsPathSeparator c = true →
            ((c :: rest).dropWhile notSep).length ≤ rest.length := fun hs =>
          length_dropWhile_cons_le notSep c rest (by simpa [notSep] using hs)
        split_ifs with hs
        all_goals first
          | exact ih _ _ _ _ h1 h2
          | exact ih _ _ _ _ (ht.trans h1) (ht.trans h2)
          | exact ih _ _ _ _ ((hq hs).trans h1) ((hq hs).trans h2)

theorem cleanLoop_fuel (rooted : Bool) (fuel : Nat) (rest out : Str) (dotdot : Nat)
    (h : rest.length ≤ fuel) :
    cleanLoop rooted fuel rest out dotdot = cleanLoop rooted rest.length rest out dotdot :=
  cleanLoop_fuel_eq rooted fuel rest.length rest out dotdot h (Nat.le_refl _)

theorem endOrSep_append_sep (p q : Str) :
    endOrSep (p ++ PathSeparator :: q) = endOrSep p := by
  cases p <;> simp [endOrSep, IsPathSeparator]

theorem takeWhile_notSep_append_sep (p q : Str) :
    (p ++ PathSeparator :: q).takeWhile notSep = p.takeWhile notSep := by
  induction p with
  | nil => simp [notSep, IsPathSeparator]
  | cons c p ih =>
    by_cases h : notSep c = true
    · simp [List.takeWhile_cons, h, ih]
    · simp [List.takeWhile_cons, h]

theorem dropWhile_notSep_append_sep (p q : Str) :
    (p ++ PathSeparator :: q).dropWhile notSep = p.dropWhile notSep ++ PathSeparator :: q := by
  induction p with
  | nil => simp [notSep, IsPathSeparator]
  | cons c p ih =>
    by_cases h : notSep c = true
    · simp [List.dropWhile_cons, h, ih]
    · simp [List.dropWhile_cons, h]

theorem dotdot_cond_append_sep (p q : Str) :
    ((p ++ PathSeparator :: q).head? == some '.' && endOrSep (p ++ PathSeparator :: q).tail) =
      (p.head? == some '.' && endOrSep p.tail) := by
  cases p with
  | nil => simp [PathSeparator]
  | cons c p => simp [endOrSep_append_sep]

theorem tail_append_sep (p q : Str) (h : (p.head? == some '.') = true) :
    (p ++ PathSeparator :: q).tail = p.tail ++ PathSeparator :: q := by
  cases p with
  | nil => simp at h
  | cons c p => simp

/-- Cleaning `p ++ "/" ++ q` is cleaning `p` and then going on with `"/" ++ q` from the
state reached: to the loop, the end of the path and a separator look the same. -/
theorem cleanLoop_split (rooted : Bool) (f : Nat) :
    ∀ (p q out : Str) (dotdot F g : Nat), p.length ≤ f →
      (p ++ PathSeparator :: q).length ≤ F → q.length + 1 ≤ g →
      cleanLoop rooted F (p ++ PathSeparator :: q) out dotdot =
        cleanLoop rooted g (PathSeparator :: q)
          (cleanLoop rooted f p out dotdot).1 (cleanLoop rooted f p out dotdot).2 := by
  induction f with
  | zero =>
    intro p q out dotdot F g hp hF hg
    have : p = [] := List.length_eq_zero.mp (Nat.le_zero.mp hp)
    subst this
    simp only [cleanLoop, List.nil_append]
    exact cleanLoop_fuel_eq _ _ _ _ _ _ hF (by simpa using hg)
  | succ f ih =>
    intro p q out dotdot F g hp hF hg
    cases p with
    | nil =>
      simp only [cleanLoop, List.nil_append]
      exact cleanLoop_fuel_eq _ _ _ _ _ _ hF (by simpa using hg)
    | cons c p =>
      cases F with
      | zero => simp at hF
      | succ F =>
        simp only [List.length_cons, Nat.add_le_add_iff_right] at hp
        simp only [List.cons_append, List.length_cons, Nat.add_le_add_iff_right] at hF
        have hF' : ∀ p' : Str, p'.length ≤ p.length →
            (p' ++ PathSeparator :: q).length ≤ F := fun p' h => by
          simp only [List.length_append, List.length_cons] at hF ⊢
          omega
        have ht : p.tail.length ≤ p.length := by simp
        have hq : ¬ IsPathSeparator c = true →
            ((c :: p).dropWhile notSep).length ≤ p.length := fun hs =>
          length_dropWhile_cons_le notSep c p (by simpa [notSep] using hs)
        have ec : c :: (p ++ PathSeparator :: q) = (c :: p) ++ PathSeparator :: q := rfl
        rw [List.cons_append]
        simp only [cleanLoop, Bool.and_assoc, endOrSep_append_sep, dotdot_cond_append_sep]
        split_ifs with hs hd hdd
        · exact ih _ _ _ _ _ _ hp (hF' _ (Nat.le_refl _)) hg
        · exact ih _ _ _ _ _ _ hp (hF' _ (Nat.le_refl _)) hg
        all_goals first
          | (have hh : (p.head? == some '.') = true := by
              simp only [Bool.and_eq_true] at hdd; exact hdd.2.1
             rw [tail_append_sep p q hh]
             exact ih _ _ _ _ _ _ (ht.trans hp) (hF' _ ht) hg)
          | (rw [ec, takeWhile_notSep_append_sep, dropWhile_notSep_append_sep]
             exact ih _ _ _ _ _ _ ((hq hs).trans hp) (hF' _ (hq hs)) hg)

theorem isName_ne_nil {n : Str} (h : isName n = true) : n ≠ [] := by
  intro e; subst e; simp [isName] at h

theorem isName_notSep {n : Str} (h : isName n = true) : ∀ a ∈ n, notSep a = true := by
  simp only [isName, Bool.and_eq_true, List.all_eq_true] at h
  exact h.1.1.2

theorem endOrSep_slashJoin (names : List Str) : endOrSep (slashJoin names) = true := by
  cases names <;> simp [slashJoin, endOrSep, IsPathSeparator]

theorem takeWhile_notSep_endOrSep (rest : Str) (h : endOrSep rest = true) :
    rest.takeWhile notSep = [] := by
  cases rest with
  | nil => rfl
  | cons c rest =>
    have : notSep c = false := by simpa [endOrSep, notSep] using h
    simp [List.takeWhile_cons, this]

theorem dropWhile_notSep_endOrSep (rest : Str) (h : endOrSep rest = true) :
    rest.dropWhile notSep = rest := by
  cases rest with
  | nil => rfl
  | cons c rest =>
    have : notSep c = false := by simpa [endOrSep, notSep] using h
    simp [List.dropWhile_cons, this]

/-- One iteration of the loop of `Clean` on a file name: the name is copied to the
output, after a separator when one is needed. -/
theorem cleanLoop_name (rooted : Bool) (fuel : Nat) (n rest out : Str) (dotdot : Nat)
    (hn : isName n = true) (hr : endOrSep rest = true) :
    cleanLoop rooted (fuel + 1) (n ++ rest) out dotdot =
      cleanLoop rooted fuel rest (addSlash rooted out ++ n) dotdot := by
  have hall := isName_notSep hn
  cases n with
  | nil => simp [isName] at hn
  | cons c n =>
    have hc : IsPathSeparator c = false := by
      have := hall c (List.mem_cons_self _ _)
      simpa [notSep] using this
    have h2 : (c == '.' && endOrSep (n ++ rest)) = false := by
      cases n with
      | nil =>
        have : c ≠ '.' := by
          intro e; subst e; simp [isName] at hn
        simp [this]
      | cons c2 n =>
        have := hall c2 (by simp)
        have h' : IsPathSeparator c2 = false := by simpa [notSep] using this
        simp [endOrSep, h']
    have h3 : (c == '.' && (n ++ rest).head? == some '.' && endOrSep (n ++ rest).tail) = false := by
      cases n with
      | nil =>
        have : c ≠ '.' := by
          intro e; subst e; simp [isName] at hn
        simp [this]
      | cons c2 n =>
        cases n with
        | nil =>
          by_cases e1 : c = '.'
          · by_cases e2 : c2 = '.'
            · subst e1; subst e2; simp [isName] at hn
            · simp [e2]
          · simp [e1]
        | cons c3 n =>
          have := hall c3 (by simp)
          have h' : IsPathSeparator c3 = false := by simpa [notSep] using this
          simp [endOrSep, h']
    rw [List.cons_append]
    simp only [cleanLoop, hc, h2, h3, Bool.false_eq_true, if_false]
    rw [← List.cons_append, List.takeWhile_append_of_pos hall, List.dropWhile_append_of_pos hall,
      takeWhile_notSep_endOrSep rest hr, dropWhile_notSep_endOrSep rest hr, List.append_nil]

theorem cleanLoop_names (rooted : Bool) (names : List Str)
    (hn : ∀ n ∈ names, isName n = true) :
    ∀ (fuel : Nat) (out : Str) (dotdot : Nat), (slashJoin names).length ≤ fuel →
      cleanLoop rooted fuel (slashJoin names) out dotdot = (namesOut rooted out names, dotdot) := by
  induction names with
  | nil =>
    intro fuel out dotdot _
    cases fuel <;> simp [slashJoin, cleanLoop, namesOut]
  | cons n ns ih =>
    intro fuel out dotdot hf
    have hn1 := hn n (List.mem_cons_self _ _)
    have hne := isName_ne_nil hn1
    have hlen : 1 ≤ n.length := List.length_pos.mpr hne
    simp only [slashJoin, List.length_cons, List.length_append] at hf
    obtain ⟨f, rfl⟩ : ∃ f, fuel = f + 2 := ⟨fuel - 2, by omega⟩
    have hs : IsPathSeparator PathSeparator = true := by simp [IsPathSeparator]
    simp only [slashJoin, cleanLoop, hs, if_true]
    rw [cleanLoop_name rooted f n (slashJoin ns) out dotdot hn1 (endOrSep_slashJoin ns)]
    rw [ih (fun m hm => hn m (List.mem_cons_of_mem _ hm)) f _ dotdot (by omega)]
    simp [namesOut]

theorem namesOut_long (rooted : Bool) (names : List Str) :
    ∀ out : Str, 2 ≤ out.length → namesOut rooted out names = out ++ slashJoin names := by
  induction names with
  | nil => intro out _; simp [namesOut, slashJoin]
  | cons n ns ih =>
    intro out h
    have h1 : out.length ≠ 1 := by omega
    have h0 : out.length ≠ 0 := by omega
    have ha : addSlash rooted out = out ++ [PathSeparator] := by
      cases rooted <;> simp [addSlash, h1, h0]
    rw [namesOut, ha, ih _ (by simp; omega)]
    simp [slashJoin]

theorem namesOut_unrooted (names : List Str) (hn : ∀ n ∈ names, isName n = true) :
    ∀ out : Str, out ≠ [] → namesOut false out names = out ++ slashJoin names := by
  induction names with
  | nil => intro out _; simp [namesOut, slashJoin]
  | cons n ns ih =>
    intro out h
    have h0 : out.length ≠ 0 := by simpa using h
    have ha : addSlash false out = out ++ [PathSeparator] := by simp [addSlash, h0]
    rw [namesOut, ha, ih (fun m hm => hn m (List.mem_cons_of_mem _ hm)) _ (by simp)]
    simp [slashJoin]

theorem intercalate_names (n : Str) (ns : List Str) :
    sep.intercalate (n :: ns) = n ++ slashJoin ns := by
  induction ns generalizing n with
  | nil => simp [List.intercalate, slashJoin]
  | cons m ns ih =>
    have := ih m
    simp only [List.intercalate, List.intersperse] at this ⊢
    simp only [sep] at this
    simp [slashJoin, this, sep]

theorem namesOut_nil (n : Str) (ns : List Str) (hn : ∀ m ∈ n :: ns, isName m = true) :
    namesOut false [] (n :: ns) = sep.intercalate (n :: ns) := by
  have hne := isName_ne_nil (hn n (List.mem_cons_self _ _))
  rw [namesOut, intercalate_names]
  have ha : addSlash false [] = [] := by simp [addSlash]
  rw [ha, List.nil_append,
    namesOut_unrooted ns (fun m hm => hn m (List.mem_cons_of_mem _ hm)) n hne]

theorem namesOut_root (n : Str) (ns : List Str) (hn : ∀ m ∈ n :: ns, isName m = true) :
    namesOut true [PathSeparator] (n :: ns) = slashJoin (n :: ns) := by
  have hne := isName_ne_nil (hn n (List.mem_cons_self _ _))
  have hlen : 1 ≤ n.length := List.length_pos.mpr hne
  have ha : addSlash true [PathSeparator] = [PathSeparator] := by simp [addSlash]
  rw [namesOut, ha, namesOut_long true ns _ (by simp; omega)]
  simp [slashJoin]

theorem slashJoin_ne_nil (n : Str) (ns : List Str) : slashJoin (n :: ns) ≠ [] := by
  simp [slashJoin]

/-- A relative path made of file names is left unchanged by `Clean`. -/
theorem Clean_names (n : Str) (ns : List Str) (hn : ∀ m ∈ n :: ns, isName m = true) :
    Clean (sep.intercalate (n :: ns)) = sep.intercalate (n :: ns) := by
  have hn1 := hn n (List.mem_cons_self _ _)
  have hne := isName_ne_nil hn1
  have hns : ∀ m ∈ ns, isName m = true := fun m hm => hn m (List.mem_cons_of_mem _ hm)
  rw [intercalate_names]
  obtain ⟨c, t, hct⟩ : ∃ c t, n = c :: t := by
    cases n with
    | nil => exact absurd rfl hne
    | cons c t => exact ⟨c, t, rfl⟩
  have hc : IsPathSeparator c = false := by
    have := isName_notSep hn1 c (by simp [hct])
    simpa [notSep] using this
  have key : cleanLoop false ((n ++ slashJoin ns).length) (n ++ slashJoin ns) [] 0 =
      (n ++ slashJoin ns, 0) := by
    obtain ⟨f, hf⟩ : ∃ f, (n ++ slashJoin ns).length = f + 1 :=
      ⟨(n ++ slashJoin ns).length - 1, by
        have : 1 ≤ n.length := List.length_pos.mpr hne
        simp only [List.length_append]; omega⟩
    rw [hf, cleanLoop_name false f n (slashJoin ns) [] 0 hn1 (endOrSep_slashJoin ns)]
    have hlen : 1 ≤ n.length := List.length_pos.mpr hne
    rw [cleanLoop_names false ns hns f _ 0 (by simp only [List.length_append] at hf; omega)]
    have ha : addSlash false [] = [] := by simp [addSlash]
    rw [ha, List.nil_append, namesOut_unrooted ns hns n hne]
  have hl : (n ++ slashJoin ns).length ≠ 0 := by
    simp [hne]
  subst hct
  rw [List.cons_append] at key hl ⊢
  simp only [Clean, hc, Bool.false_eq_true, if_false, key]
  simp

/-- Joining file names to a cleaned path: `Clean` leaves `T/n1/.../nk` unchanged when
`T` is a cleaned path other than `.`; for the root `/` the result is `/n1/.../nk`. -/
theorem Clean_append_slashJoin (T : Str) (names : List Str) (hT : Clean T = T)
    (hdot : T ≠ ['.']) (hn : ∀ m ∈ names, isName m = true) (hne : names ≠ []) :
    Clean (T ++ slashJoin names) =
      if T = [PathSeparator] then slashJoin names else T ++ slashJoin names := by
  obtain ⟨n, ns, rfl⟩ : ∃ n ns, names = n :: ns := by
    cases names with
    | nil => exact absurd rfl hne
    | cons n ns => exact ⟨n, ns, rfl⟩
  cases T with
  | nil => simp [Clean] at hT
  | cons c t =>
    have hsj : slashJoin (n :: ns) = PathSeparator :: (n ++ slashJoin ns) := rfl
    by_cases hc : IsPathSeparator c = true
    · have hc' : c = PathSeparator := by simpa [IsPathSeparator] using hc
      simp only [Clean, hc, if_true] at hT
      have hst : (cleanLoop true (c :: t).length t [PathSeparator] 1).1 = c :: t := by
        by_cases h0 : (cleanLoop true (c :: t).length t [PathSeparator] 1).1.length = 0
        · rw [if_pos h0] at hT; exact absurd hT.symm hdot
        · rw [if_neg h0] at hT; exact hT
      have hsplit := cleanLoop_split true (c :: t).length t (n ++ slashJoin ns) [PathSeparator] 1
        (c :: (t ++ slashJoin (n :: ns))).length (slashJoin (n :: ns)).length
        (by simp) (by simp [hsj]) (by simp [hsj])
      rw [← hsj, hst] at hsplit
      rw [cleanLoop_names true (n :: ns) hn _ _ _ (Nat.le_refl _)] at hsplit
      rw [List.cons_append]
      simp only [Clean, hc, if_true, hsplit]
      by_cases ht : t = []
      · subst ht; subst hc'
        rw [namesOut_root n ns hn]
        simp [slashJoin]
      · have h2 : 2 ≤ (c :: t).length := by
          have : 1 ≤ t.length := List.length_pos.mpr ht
          simp; omega
        rw [namesOut_long true (n :: ns) _ h2]
        simp [ht]
    · simp only [Clean, hc, Bool.false_eq_true, if_false] at hT
      have hst : (cleanLoop false (c :: t).length (c :: t) [] 0).1 = c :: t := by
        by_cases h0 : (cleanLoop false (c :: t).length (c :: t) [] 0).1.length = 0
        · rw [if_pos h0] at hT; exact absurd hT.symm hdot
        · rw [if_neg h0] at hT; exact hT
      have hsplit := cleanLoop_split false (c :: t).length (c :: t) (n ++ slashJoin ns) [] 0
        (c :: (t ++ slashJoin (n :: ns))).length (slashJoin (n :: ns)).length
        (by simp) (by simp [hsj]) (by simp [hsj])
      rw [← hsj, hst] at hsplit
      rw [cleanLoop_names false (n :: ns) hn _ _ _ (Nat.le_refl _)] at hsplit
      rw [namesOut_unrooted (n :: ns) hn _ (by simp)] at hsplit
      have hcs : c :: t ≠ [PathSeparator] := by
        intro e
        have : c = PathSeparator := by simpa using (List.cons.inj e).1
        exact hc (by simp [IsPathSeparator, this])
      rw [if_neg hcs]
      have e : c :: t ++ slashJoin (n :: ns) = c :: (t ++ slashJoin (n :: ns)) := rfl
      rw [e] at hsplit ⊢
      simp only [Clean, hc, Bool.false_eq_true, if_false, hsplit]
      simp

/-- With the root `.`: `Clean` of `./n1/.../nk` is `n1/.../nk`. -/
theorem Clean_dot_slashJoin (n : Str) (ns : List Str) (hn : ∀ m ∈ n :: ns, isName m = true) :
    Clean ('.' :: slashJoin (n :: ns)) = sep.intercalate (n :: ns) := by
  have hd : IsPathSeparator '.' = false := by decide
  have he : endOrSep (slashJoin (n :: ns)) = true := endOrSep_slashJoin _
  have h1 : cleanLoop false ((slashJoin (n :: ns)).length + 1) ('.' :: slashJoin (n :: ns)) [] 0 =
      cleanLoop false (slashJoin (n :: ns)).length (slashJoin (n :: ns)) [] 0 := by
    rw [cleanLoop]
    simp [hd, he]
  simp only [Clean, hd, Bool.false_eq_true, if_false, List.length_cons] at h1 ⊢
  rw [h1]
  have h2 := cleanLoop_names false (n :: ns) hn _ [] 0 (Nat.le_refl _)
  simp only [List.length_cons] at h2
  rw [h2, namesOut_nil n ns hn]
  have hne := isName_ne_nil (hn n (List.mem_cons_self _ _))
  simp [intercalate_names, hne]

/-! ## The planner, in closed form -/

theorem found_iff (m : Str) (l : List Str) : found m l = true ↔ m ∈ l := by
  induction l with
  | nil => simp [found]
  | cons a l ih =>
    by_cases h : a = m
    · simp [found, h]
    · have h' : ¬ m = a := fun e => h e.symm
      simp [found, h, h', ih]

theorem walkAll_eq (source target : Str) (walked : List WalkEntry)
    (hw : ∀ e ∈ walked, e.err = false) (st : List Str × List job) :
    walkAll source target st walked =
      some (st.1 ++ localKeys source walked,
            st.2 ++ (regular walked).map (uploadJob source target)) := by
  induction walked generalizing st with
  | nil => simp [walkAll, localKeys, regular]
  | cons e es ih =>
    have he : e.err = false := hw e (List.mem_cons_self _ _)
    have hes : ∀ x ∈ es, x.err = false := fun x hx => hw x (List.mem_cons_of_mem _ hx)
    by_cases hd : e.isDir = true
    · simp [walkAll, walkFn, he, hd, ih hes, localKeys, regular]
    · simp [walkAll, walkFn, he, hd, ih hes, localKeys, regular, uploadJob]

theorem redirectLoop_eq (ds : List (Str × Str)) (st : List Str × List job) :
    redirectLoop st ds = (st.1 ++ redirectKeys ds, st.2 ++ ds.map redirectJob) := by
  induction ds generalizing st with
  | nil => simp [redirectLoop, redirectKeys]
  | cons d ds ih =>
    obtain ⟨a, b⟩ := d
    simp [redirectLoop, ih, redirectKeys, redirectJob]

theorem deleteLoop_eq (target : Str) (loc : List Str) (remote : List Str) (jobs : List job) :
    deleteLoop target loc jobs remote = jobs ++ (deleted target loc remote).map deleteJob := by
  induction remote generalizing jobs with
  | nil => simp [deleteLoop, deleted]
  | cons r rs ih =>
    by_cases h : found (matcherOf target r) loc = true
    · simp [deleteLoop, h, ih, deleted]
    · simp [deleteLoop, h, ih, deleted, deleteJob]

/-- The job list `createSyncJobs` leaves when neither `List` nor the walk fails: the
jobs it started with, one upload job per regular file, one redirect job per redirect
entry and, with `Delete`, one delete job per listed key whose stripped key is not in
`local`; `local` starts with the empty string of `make([]string, 1, 1)`. -/
theorem createSyncJobs_eq (p : Plugin) (remote : List Str) (walked : List WalkEntry)
    (hw : ∀ e ∈ walked, e.err = false) :
    createSyncJobs p (some remote) walked =
      some { p with jobs :=
        (p.jobs ++ (regular walked).map (uploadJob p.Source p.Target)
          ++ p.Redirects.map redirectJob)
        ++ (if p.Delete then
              (deleted p.Target
                ([] :: (localKeys p.Source walked ++ redirectKeys p.Redirects)) remote).map
                deleteJob
            else []) } := by
  unfold createSyncJobs
  simp only [walkAll_eq _ _ _ hw, redirectLoop_eq, deleteLoop_eq]
  by_cases hd : p.Delete = true
  · simp [hd]
  · simp [hd]

/-! ## `TrimPrefix` and `Join` on keys made of file names -/

theorem TrimPrefix_append (pre s : Str) : TrimPrefix (pre ++ s) pre = s := by
  have h : pre.isPrefixOf (pre ++ s) = true := by
    rw [List.isPrefixOf_iff_prefix]; exact List.prefix_append _ _
  simp [TrimPrefix, h]

theorem TrimPrefix_nil (s : Str) : TrimPrefix s [] = s := by
  simp [TrimPrefix]

theorem TrimPrefix_sep_cons (s : Str) : TrimPrefix (PathSeparator :: s) sep = s := by
  have := TrimPrefix_append sep s
  simpa [sep] using this

theorem TrimPrefix_sep_of_notSep (c : Char) (s : Str) (h : notSep c = true) :
    TrimPrefix (c :: s) sep = c :: s := by
  have hc : c ≠ PathSeparator := by
    intro e; subst e; simp [notSep, IsPathSeparator] at h
  have : sep.isPrefixOf (c :: s) = false := by
    simp [sep, List.isPrefixOf, hc, Ne.symm hc]
  simp [TrimPrefix, this]

theorem TrimPrefix_sep_names (n : Str) (ns : List Str) (hn : isName n = true) :
    TrimPrefix (sep.intercalate (n :: ns)) sep = sep.intercalate (n :: ns) := by
  rw [intercalate_names]
  cases n with
  | nil => simp [isName] at hn
  | cons c t =>
    rw [List.cons_append]
    exact TrimPrefix_sep_of_notSep c _ (isName_notSep hn c (List.mem_cons_self _ _))

/-- A relative key: the file names it is made of, joined by separators. -/
theorem isRelKey_names {k : Str} (h : isRelKey k = true) :
    ∃ n ns, (∀ m ∈ n :: ns, isName m = true) ∧ k = sep.intercalate (n :: ns) := by
  unfold isRelKey at h
  have hk : sep.intercalate (k.splitOn PathSeparator) = k :=
    List.intercalate_splitOn k PathSeparator
  cases hs : k.splitOn PathSeparator with
  | nil => exact absurd hs (List.splitOnP_ne_nil _ _)
  | cons n ns =>
    rw [hs] at h hk
    exact ⟨n, ns, by simpa using h, hk.symm⟩

theorem Join_pair (T k : Str) (hT : T ≠ []) : Join [T, k] = Clean (T ++ slashJoin [k]) := by
  simp [Join, hT, intercalate_names]

theorem slashJoin_intercalate (n : Str) (ns : List Str) :
    slashJoin [sep.intercalate (n :: ns)] = slashJoin (n :: ns) := by
  simp [slashJoin, intercalate_names]

theorem Clean_ne_nil (T : Str) : Clean T ≠ [] := by
  cases T with
  | nil => simp [Clean]
  | cons c t =>
    simp only [Clean]
    split_ifs with h1 h2 h3 <;> simp_all

/-- Joining a relative key to a cleaned path other than `.` and `/`. -/
theorem Join_relKey (T k : Str) (hT : Clean T = T) (hdot : T ≠ ['.'])
    (hroot : T ≠ [PathSeparator]) (hk : isRelKey k = true) :
    Join [T, k] = T ++ sep ++ k := by
  obtain ⟨n, ns, hn, rfl⟩ := isRelKey_names hk
  have hne : T ≠ [] := by
    intro e; rw [e] at hT; exact Clean_ne_nil [] hT
  rw [Join_pair T _ hne, slashJoin_intercalate,
    Clean_append_slashJoin T (n :: ns) hT hdot hn (by simp), if_neg hroot, intercalate_names]
  simp [slashJoin, sep]

/-- Joining a relative key to the root `/`. -/
theorem Join_root_relKey (k : Str) (hk : isRelKey k = true) :
    Join [[PathSeparator], k] = PathSeparator :: k := by
  obtain ⟨n, ns, hn, rfl⟩ := isRelKey_names hk
  rw [Join_pair _ _ (by simp), slashJoin_intercalate,
    Clean_append_slashJoin [PathSeparator] (n :: ns) (by decide) (by decide) hn (by simp),
    if_pos rfl]
  simp [slashJoin, intercalate_names]

/-- Joining a relative key to the empty string or to `.`. -/
theorem Join_nil_relKey (k : Str) (hk : isRelKey k = true) : Join [[], k] = k := by
  obtain ⟨n, ns, hn, rfl⟩ := isRelKey_names hk
  have hne : sep.intercalate (n :: ns) ≠ [] := by
    rw [intercalate_names]
    simp [isName_ne_nil (hn n (List.mem_cons_self _ _))]
  have h1 : sep.intercalate [sep.intercalate (n :: ns)] = sep.intercalate (n :: ns) := by
    simp [List.intercalate]
  simp only [Join, ne_eq, not_true_eq_false, if_false, hne, not_false_eq_true, if_true, h1]
  exact Clean_names n ns hn

theorem Join_dot_relKey (k : Str) (hk : isRelKey k = true) : Join [['.'], k] = k := by
  obtain ⟨n, ns, hn, rfl⟩ := isRelKey_names hk
  rw [Join_pair _ _ (by simp), slashJoin_intercalate]
  exact Clean_dot_slashJoin n ns hn

theorem isRelKey_TrimPrefix_sep (k : Str) (hk : isRelKey k = true) : TrimPrefix k sep = k := by
  obtain ⟨n, ns, hn, rfl⟩ := isRelKey_names hk
  exact TrimPrefix_sep_names n ns (hn n (List.mem_cons_self _ _))

/-- The delete pass recovers the relative key from the upload key, for every target
prefix that is empty or a cleaned path other than `.`. -/
theorem matcherOf_Join (T k : Str) (hT : T = [] ∨ (Clean T = T ∧ T ≠ ['.']))
    (hk : isRelKey k = true) : matcherOf T (Join [T, k]) = k := by
  rcases hT with rfl | ⟨hT, hdot⟩
  · rw [Join_nil_relKey k hk, matcherOf, TrimPrefix_nil, isRelKey_TrimPrefix_sep k hk]
  · by_cases hroot : T = [PathSeparator]
    · subst hroot
      rw [Join_root_relKey k hk, matcherOf]
      have : TrimPrefix (PathSeparator :: k) [PathSeparator] = k := TrimPrefix_sep_cons k
      rw [this]
      exact isRelKey_TrimPrefix_sep k hk
    · rw [Join_relKey T k hT hdot hroot hk, matcherOf, List.append_assoc, TrimPrefix_append]
      exact TrimPrefix_append sep k

/-! ## The planner: the claims -/

theorem walkAll_some (source target : Str) (walked : List WalkEntry)
    (st st1 : List Str × List job) (h : walkAll source target st walked = some st1) :
    ∀ e ∈ walked, e.err = false := by
  induction walked generalizing st with
  | nil => simp
  | cons e es ih =>
    intro x hx
    by_cases he : e.err = true
    · simp [walkAll, walkFn, he] at h
    · have he' : e.err = false := by simpa using he
      rcases List.mem_cons.mp hx with rfl | hx
      · exact he'
      · cases hw : walkFn source target st e with
        | none => simp [walkAll, hw] at h
        | some st2 =>
          simp only [walkAll, hw] at h
          exact ih st2 h x hx

theorem createSyncJobs_some (p p1 : Plugin) (listed : Option (List Str))
    (walked : List WalkEntry) (h : createSyncJobs p listed walked = some p1) :
    ∃ remote, listed = some remote ∧ ∀ e ∈ walked, e.err = false := by
  cases listed with
  | none => simp [createSyncJobs] at h
  | some remote =>
    refine ⟨remote, rfl, ?_⟩
    cases hw : walkAll p.Source p.Target ([[]], p.jobs) walked with
    | none => simp [createSyncJobs, hw] at h
    | some st => exact walkAll_some _ _ _ _ _ hw

/-- C1: evaluation of `Exec` up to `runJobs` on the specification's own example
(redirect table `{"old-page.html": "https://example.com/new"}`, empty local tree,
`Delete = false`): the job list is not the single redirect job, it starts with the
zero-valued job that `p.jobs = make([]job, 1, 1)` creates. -/
theorem exec_plan_starts_with_zero_job :
    Option.map Plugin.jobs
        (planJobs (exPlugin [] false [("old-page.html".toList, "https://example.com/new".toList)])
          (exWorld [] [])) =
      some [zeroJob,
        ⟨"old-page.html".toList, "https://example.com/new".toList, "redirect".toList⟩] := by
  decide

/-- C2: evaluation of `createSyncJobs` with `Delete = true`, target `site`, the local
file `a.txt` and the listing `site/a.txt`, `site/`: the stripped key of `site/` is the
empty string, which is neither a local key nor a redirect source, yet no delete job is
emitted for it, because `local := make([]string, 1, 1)` starts with an empty string. -/
theorem listed_prefix_key_not_deleted :
    matcherOf "site".toList "site/".toList ∉
        localKeys "/drone/src/public".toList (exWalked ["a.txt".toList]) ++ redirectKeys [] ∧
      Option.map Plugin.jobs
          (createSyncJobs (exSynced "site".toList true [])
            (some ["site/a.txt".toList, "site/".toList]) (exWalked ["a.txt".toList])) =
        some [zeroJob,
          ⟨"/drone/src/public/a.txt".toList, "site/a.txt".toList, "upload".toList⟩] := by
  decide

/-- C4: evaluation of `Exec` up to `runJobs` with target `.` (which `sanitizeInputs`
leaves unchanged), the local file `.htaccess` and the listing `.htaccess`: the job list
holds an upload job and a delete job for the same remote path `.htaccess`. -/
theorem upload_and_delete_same_remote :
    Option.map Plugin.jobs
        (planJobs (exPlugin ".".toList true [])
          (exWorld [".htaccess".toList] [".htaccess".toList])) =
      some [zeroJob,
        ⟨"/drone/src/public/.htaccess".toList, ".htaccess".toList, "upload".toList⟩,
        ⟨[], ".htaccess".toList, "delete".toList⟩] := by
  decide

/-- C5, as stated, fails: with target `site`, the local file `a.txt` and the listing
`sitea.txt`, the listed key is `join(Target, k)` for no local key `k`, but its stripped
key `a.txt` is a local key and no delete job is emitted. -/
theorem delete_complete_as_specified_fails :
    ¬ DeleteCompleteAsSpecified (exSynced "site".toList true [])
        (exWalked ["a.txt".toList]) ["sitea.txt".toList] := by
  intro h
  have h1 := h { exSynced "site".toList true [] with
      jobs := [zeroJob,
        ⟨"/drone/src/public/a.txt".toList, "site/a.txt".toList, "upload".toList⟩] }
    (by decide) "sitea.txt".toList (by simp) (by decide)
  revert h1
  decide

/-- C5, amended: with `Delete = true`, every listed key whose stripped key
`TrimPrefix(TrimPrefix(r, Target), separator)` is not empty and is neither a local
relative key nor a redirect source key (one leading separator removed) gets a delete
job with `remote = r`. -/
theorem delete_complete (p : Plugin) (remote : List Str) (walked : List WalkEntry)
    (hw : ∀ e ∈ walked, e.err = false) (hd : p.Delete = true) (r : Str) (hr : r ∈ remote)
    (hne : matcherOf p.Target r ≠ [])
    (hk : matcherOf p.Target r ∉ localKeys p.Source walked ++ redirectKeys p.Redirects) :
    ∃ p1, createSyncJobs p (some remote) walked = some p1 ∧
      { localPath := [], remote := r, action := "delete".toList } ∈ p1.jobs := by
  refine ⟨_, createSyncJobs_eq p remote walked hw, ?_⟩
  simp only [hd, if_true, List.mem_append, List.mem_map]
  refine Or.inr ⟨r, ?_, rfl⟩
  simp only [deleted, List.mem_filter, Bool.not_eq_true', hr, true_and]
  cases hf : found (matcherOf p.Target r) ([] :: (localKeys p.Source walked ++ redirectKeys p.Redirects)) with
  | false => rfl
  | true =>
    rw [found_iff] at hf
    rcases List.mem_cons.mp hf with h | h
    · exact absurd h hne
    · exact absurd h hk

theorem delete_complete_witness :
    ∃ p1, createSyncJobs (exSynced "site".toList true [])
        (some ["site/a.txt".toList, "site/old.txt".toList])
        (exWalked ["a.txt".toList, "b/c.txt".toList]) = some p1 ∧
      { localPath := [], remote := "site/old.txt".toList, action := "delete".toList } ∈ p1.jobs :=
  delete_complete (exSynced "site".toList true [])
    ["site/a.txt".toList, "site/old.txt".toList]
    (exWalked ["a.txt".toList, "b/c.txt".toList]) (by decide) rfl "site/old.txt".toList
    (by decide) (by decide) (by decide)

/-- C3, as stated, fails: with target `site`, the local file `a.txt`, the redirect table
`{"old.html": "site/new.html"}` and the listing `site/a.txt`, `site/new.html` (exactly
the upload keys and the redirect targets, all under the prefix), a delete job is
emitted for the redirect target `site/new.html`: the delete pass matches redirect
source keys, not redirect targets. -/
theorem idempotent_as_specified_fails :
    ¬ IdempotentAsSpecified
        (exSynced "site".toList true [("old.html".toList, "site/new.html".toList)])
        (exWalked ["a.txt".toList]) ["site/a.txt".toList, "site/new.html".toList] := by
  intro h
  have h1 := h (by
      intro r
      have e1 : Join ["site".toList, relKey "/drone/src/public".toList
          ("/drone/src/public".toList ++ sep ++ "a.txt".toList)] = "site/a.txt".toList := by
        decide
      simp only [exWalked, exWorld, regular, exSynced, List.map_cons, List.map_nil,
        List.filter_cons, List.filter_nil, Bool.not_true, Bool.false_eq_true, if_false,
        Bool.not_false, if_true, List.mem_cons, List.mem_singleton, List.not_mem_nil,
        or_false, exists_eq_left, e1])
    { exSynced "site".toList true [("old.html".toList, "site/new.html".toList)] with
      jobs := [zeroJob,
        ⟨"/drone/src/public/a.txt".toList, "site/a.txt".toList, "upload".toList⟩,
        ⟨"old.html".toList, "site/new.html".toList, "redirect".toList⟩,
        ⟨[], "site/new.html".toList, "delete".toList⟩] }
    (by decide) ⟨[], "site/new.html".toList, "delete".toList⟩ (by simp)
  exact h1 rfl

/-- C3, amended: for every target that is empty or a cleaned path other than `.`, every
local file set and every redirect table whose keys (the relative keys of the files, the
redirect source keys with one leading separator removed) are file names joined by
separators: if every key of the listing is `join(Target, k)` for a local relative key
or a redirect source key `k` (the keys the delete pass matches; redirect targets are
not among them), then `createSyncJobs` with `Delete = true` emits no delete job: the
job list is the initial one followed by the upload and the redirect jobs; and for every
other listing the job list is this one followed by delete jobs only. -/
theorem planner_idempotent (p : Plugin) (remote : List Str) (walked : List WalkEntry)
    (hw : ∀ e ∈ walked, e.err = false) (hd : p.Delete = true)
    (hT : p.Target = [] ∨ (Clean p.Target = p.Target ∧ p.Target ≠ ['.']))
    (hL : ∀ e ∈ regular walked, isRelKey (relKey p.Source e.path) = true)
    (hD : ∀ d ∈ p.Redirects, isRelKey (TrimPrefix d.1 sep) = true)
    (hR : ∀ r ∈ remote,
      (∃ e ∈ regular walked, r = Join [p.Target, relKey p.Source e.path]) ∨
      (∃ d ∈ p.Redirects, r = Join [p.Target, TrimPrefix d.1 sep])) :
    ∃ p1, createSyncJobs p (some remote) walked = some p1 ∧
      p1.jobs = p.jobs ++ (regular walked).map (uploadJob p.Source p.Target)
        ++ p.Redirects.map redirectJob ∧
      ∀ remote2 : List Str, ∃ (p2 : Plugin) (ds : List Str),
        createSyncJobs p (some remote2) walked = some p2 ∧
        p2.jobs = p1.jobs ++ ds.map deleteJob := by
  have hnone : deleted p.Target
      ([] :: (localKeys p.Source walked ++ redirectKeys p.Redirects)) remote = [] := by
    simp only [deleted, List.filter_eq_nil_iff, Bool.not_eq_true', Bool.not_eq_false]
    intro r hr
    rcases hR r hr with ⟨e, he, rfl⟩ | ⟨d, hd', rfl⟩
    · rw [matcherOf_Join p.Target _ hT (hL e he), found_iff]
      refine List.mem_cons_of_mem _ (List.mem_append_left _ ?_)
      exact List.mem_map.mpr ⟨e, he, rfl⟩
    · rw [matcherOf_Join p.Target _ hT (hD d hd'), found_iff]
      refine List.mem_cons_of_mem _ (List.mem_append_right _ ?_)
      exact List.mem_map.mpr ⟨d, hd', rfl⟩
  refine ⟨_, createSyncJobs_eq p remote walked hw, ?_, ?_⟩
  · simp [hd, hnone]
  · intro remote2
    refine ⟨_, deleted p.Target
      ([] :: (localKeys p.Source walked ++ redirectKeys p.Redirects)) remote2,
      createSyncJobs_eq p remote2 walked hw, ?_⟩
    simp only [hd, if_true, hnone, List.map_nil, List.append_nil]

theorem planner_idempotent_witness :
    ∃ p1, createSyncJobs
        (exSynced "site".toList true [("/old.html".toList, "site/new.html".toList)])
        (some ["site/a.txt".toList, "site/b/c.txt".toList, "site/old.html".toList])
        (exWalked ["a.txt".toList, "b/c.txt".toList]) = some p1 ∧
      p1.jobs =
        (exSynced "site".toList true [("/old.html".toList, "site/new.html".toList)]).jobs
        ++ (regular (exWalked ["a.txt".toList, "b/c.txt".toList])).map
            (uploadJob "/drone/src/public".toList "site".toList)
        ++ [("/old.html".toList, "site/new.html".toList)].map redirectJob ∧
      ∀ remote2 : List Str, ∃ (p2 : Plugin) (ds : List Str),
        createSyncJobs
          (exSynced "site".toList true [("/old.html".toList, "site/new.html".toList)])
          (some remote2) (exWalked ["a.txt".toList, "b/c.txt".toList]) = some p2 ∧
        p2.jobs = p1.jobs ++ ds.map deleteJob :=
  planner_idempotent
    (exSynced "site".toList true [("/old.html".toList, "site/new.html".toList)])
    ["site/a.txt".toList, "site/b/c.txt".toList, "site/old.html".toList]
    (exWalked ["a.txt".toList, "b/c.txt".toList]) (by decide) rfl
    (Or.inr (by decide)) (by decide) (by decide) (by decide)

theorem filter_invalidate_sync (p : Plugin) (remote : List Str) (walked : List WalkEntry) :
    ((([zeroJob] ++ (regular walked).map (uploadJob p.Source p.Target)
          ++ p.Redirects.map redirectJob)
        ++ (if p.Delete then
              (deleted p.Target
                ([] :: (localKeys p.Source walked ++ redirectKeys p.Redirects)) remote).map
                deleteJob
            else [])).filter (fun j => j.action == "invalidateCloudFront".toList)) = [] := by
  rw [List.filter_eq_nil_iff]
  intro j hj
  simp only [List.mem_append, List.mem_singleton, List.mem_map] at hj
  rcases hj with ((rfl | ⟨e, _, rfl⟩) | ⟨d, _, rfl⟩) | hj
  · decide
  · simp only [uploadJob]; decide
  · simp only [redirectJob]; decide
  · split at hj
    · obtain ⟨r, _, rfl⟩ := List.mem_map.mp hj
      simp only [deleteJob]; decide
    · simp at hj

/-- C7: in the job list `Exec` hands to `runJobs` (after `createSyncJobs` and
`createInvalidateJob`), the jobs with action `invalidateCloudFront` are exactly one
when `CloudFrontDistribution` is not empty and none when it is empty; when present it
is the last element of the list, its local path is empty and its remote is `/*`. -/
theorem invalidate_job_once_and_last (p : Plugin) (w : World) (p1 : Plugin)
    (h : planJobs p w = some p1) :
    p1.jobs.filter (fun j => j.action == "invalidateCloudFront".toList) =
        (if p.CloudFrontDistribution = [] then []
         else [{ localPath := [], remote := "/*".toList,
                 action := "invalidateCloudFront".toList }]) ∧
      (p.CloudFrontDistribution ≠ [] →
        p1.jobs.getLast? = some { localPath := [], remote := "/*".toList,
                                  action := "invalidateCloudFront".toList }) := by
  unfold planJobs at h
  cases hs : sanitizeInputs p w.Getwd with
  | none => simp [hs] at h
  | some ps =>
    have hcf : ps.CloudFrontDistribution = p.CloudFrontDistribution := by
      unfold sanitizeInputs at hs
      split at hs
      · simp at hs
      · split at hs
        · simp at hs
        · simp only [Option.some.injEq] at hs
          rw [← hs]
    simp only [hs] at h
    cases hc : createSyncJobs { ps with jobs := [zeroJob] }
        (w.ClientList ps.Target) (w.Walk ps.Source) with
    | none => simp [hc] at h
    | some pc =>
      simp only [hc, Option.some.injEq] at h
      obtain ⟨remote, hl, hw⟩ := createSyncJobs_some _ _ _ _ hc
      rw [hl, createSyncJobs_eq _ remote _ hw, Option.some.injEq] at hc
      have hf := filter_invalidate_sync ps remote (w.Walk ps.Source)
      subst h
      subst hc
      by_cases he : p.CloudFrontDistribution = []
      · have hlen : ¬ (ps.CloudFrontDistribution.length > 0) := by simp [hcf, he]
        simp only [createInvalidateJob, hlen, if_false, he, if_true, ne_eq, not_true_eq_false,
          false_implies, and_true]
        exact hf
      · have hlen : ps.CloudFrontDistribution.length > 0 := by
          rw [hcf]; exact List.length_pos.mpr he
        simp only [createInvalidateJob, hlen, if_true, he, if_false, ne_eq, not_false_eq_true,
          true_implies]
        refine ⟨?_, ?_⟩
        · rw [List.filter_append, hf]
          decide
        · rw [List.getLast?_append]
          rfl

theorem invalidate_job_once_and_last_witness :
    planJobs exPluginCF (exWorld ["site/old.txt".toList] ["a.txt".toList]) = some exPlannedCF ∧
      exPlannedCF.jobs.filter (fun j => j.action == "invalidateCloudFront".toList) =
        [{ localPath := [], remote := "/*".toList, action := "invalidateCloudFront".toList }] ∧
      exPlannedCF.jobs.getLast? = some { localPath := [], remote := "/*".toList,
                                         action := "invalidateCloudFront".toList } :=
  have h := invalidate_job_once_and_last exPluginCF
    (exWorld ["site/old.txt".toList] ["a.txt".toList]) exPlannedCF (by decide)
  ⟨by decide, h.1, h.2 (by decide)⟩

theorem isRelKey_splitOn {k : Str} (h : isRelKey k = true) :
    ∃ n ns, k.splitOn PathSeparator = n :: ns ∧ (∀ m ∈ n :: ns, isName m = true) ∧
      k = sep.intercalate (n :: ns) := by
  unfold isRelKey at h
  have hk : sep.intercalate (k.splitOn PathSeparator) = k :=
    List.intercalate_splitOn k PathSeparator
  cases hs : k.splitOn PathSeparator with
  | nil => exact absurd hs (List.splitOnP_ne_nil _ _)
  | cons n ns =>
    rw [hs] at h hk
    exact ⟨n, ns, rfl, by simpa using h, hk.symm⟩

/-- What `filepath.Walk` visits below a cleaned root other than `.` and `/`. -/
theorem walkPath_names (names : List Str) (hn : ∀ m ∈ names, isName m = true) :
    ∀ root : Str, Clean root = root → root ≠ ['.'] → root ≠ [PathSeparator] →
      walkPath root names = root ++ slashJoin names := by
  induction names with
  | nil => intro root _ _ _; simp [walkPath, slashJoin]
  | cons n ns ih =>
    intro root hc hdot hroot
    have hne : root ≠ [] := by
      intro e; rw [e] at hc; exact Clean_ne_nil [] hc
    have hlen : 1 ≤ root.length := List.length_pos.mpr hne
    have hn1 : ∀ m ∈ [n], isName m = true := fun m hm =>
      hn m (by rw [List.mem_singleton.mp hm]; exact List.mem_cons_self _ _)
    have hj : Clean (root ++ slashJoin [n]) = root ++ slashJoin [n] := by
      rw [Clean_append_slashJoin root [n] hc hdot hn1 (by simp), if_neg hroot]
    have h2 : 2 ≤ (root ++ slashJoin [n]).length := by
      simp only [List.length_append, slashJoin, List.length_cons]; omega
    rw [walkPath, Join_pair root n hne, hj,
      ih (fun m hm => hn m (List.mem_cons_of_mem _ hm)) _ (by rw [hj])
        (by intro e; rw [e] at h2; simp at h2) (by intro e; rw [e] at h2; simp at h2)]
    simp [slashJoin]

theorem Clean_name (n : Str) (hn : isName n = true) : Clean n = n := by
  have := Clean_names n [] (by simpa using hn)
  simpa [intercalate_names, slashJoin] using this

theorem isName_ne_dot {n : Str} (hn : isName n = true) : n ≠ ['.'] := by
  intro e; subst e; simp [isName] at hn

theorem isName_ne_sep {n : Str} (hn : isName n = true) : n ≠ [PathSeparator] := by
  intro e; subst e; revert hn; decide

/-- What `filepath.Walk` visits below the root `.`. -/
theorem walkPath_dot (n : Str) (ns : List Str) (hn : ∀ m ∈ n :: ns, isName m = true) :
    walkPath ['.'] (n :: ns) = sep.intercalate (n :: ns) := by
  have hn1 := hn n (List.mem_cons_self _ _)
  have hj : Join [['.'], n] = n := by
    rw [Join_pair _ _ (by simp)]
    have := Clean_dot_slashJoin n [] (by simpa using hn1)
    simpa [intercalate_names, slashJoin] using this
  rw [walkPath, hj, walkPath_names ns (fun m hm => hn m (List.mem_cons_of_mem _ hm)) n
    (Clean_name n hn1) (isName_ne_dot hn1) (isName_ne_sep hn1), intercalate_names]

/-- An absolute path made of file names is left unchanged by `Clean`. -/
theorem Clean_rooted_names (n : Str) (ns : List Str) (hn : ∀ m ∈ n :: ns, isName m = true) :
    Clean (slashJoin (n :: ns)) = slashJoin (n :: ns) := by
  have hn1 := hn n (List.mem_cons_self _ _)
  have hns : ∀ m ∈ ns, isName m = true := fun m hm => hn m (List.mem_cons_of_mem _ hm)
  have hne := isName_ne_nil hn1
  have hlen : 1 ≤ n.length := List.length_pos.mpr hne
  have hs : IsPathSeparator PathSeparator = true := by decide
  have key : cleanLoop true ((n ++ slashJoin ns).length + 1) (n ++ slashJoin ns)
      [PathSeparator] 1 = (PathSeparator :: (n ++ slashJoin ns), 1) := by
    rw [cleanLoop_name true _ n (slashJoin ns) _ 1 hn1 (endOrSep_slashJoin ns),
      cleanLoop_names true ns hns _ _ 1 (by simp)]
    have ha : addSlash true [PathSeparator] = [PathSeparator] := by simp [addSlash]
    rw [ha, namesOut_long true ns _ (by simp; omega)]
    simp
  simp only [slashJoin, Clean, hs, if_true, List.length_cons, key]
  simp

/-- What `filepath.Walk` visits below the root `/`. -/
theorem walkPath_root (n : Str) (ns : List Str) (hn : ∀ m ∈ n :: ns, isName m = true) :
    walkPath [PathSeparator] (n :: ns) = PathSeparator :: sep.intercalate (n :: ns) := by
  have hn1 := hn n (List.mem_cons_self _ _)
  have hne := isName_ne_nil hn1
  have hlen : 1 ≤ n.length := List.length_pos.mpr hne
  have hj : Clean ([PathSeparator] ++ slashJoin [n]) = slashJoin [n] := by
    rw [Clean_append_slashJoin [PathSeparator] [n] (by decide) (by decide)
      (by simpa using hn1) (by simp), if_pos rfl]
  have hc : Clean (slashJoin [n]) = slashJoin [n] :=
    Clean_rooted_names n [] (by simpa using hn1)
  have h2 : 2 ≤ (slashJoin [n]).length := by
    simp only [slashJoin, List.length_cons, List.length_append]; omega
  rw [walkPath, Join_pair _ _ (by simp), hj,
    walkPath_names ns (fun m hm => hn m (List.mem_cons_of_mem _ hm)) _ hc
      (by intro e; rw [e] at h2; simp at h2) (by intro e; rw [e] at h2; simp at h2),
    intercalate_names]
  simp [slashJoin]

/-- C10: for every regular file that `filepath.Walk` visits below a cleaned `Source`,
reached through the file names that make up the cleaned relative path `rel`, the walk
callback computes the relative key `rel` exactly and emits the upload job with
`local` equal to the visited path and `remote = join(Target, rel)`.  The visited path
is `Source + separator + rel` (for every `Source` other than `.` and the root `/`, whose
visited paths are `rel` and `/` + `rel`); with `Source = "."` the key is the visited
path unchanged, so a leading `.` of a file name is never stripped. -/
theorem relative_key_of_visited_file (source target rel : Str) (st : List Str × List job)
    (hS : Clean source = source) (hrel : isRelKey rel = true) :
    relKey source (walkPath source (rel.splitOn PathSeparator)) = rel ∧
      walkFn source target st ⟨walkPath source (rel.splitOn PathSeparator), false, false⟩ =
        some (st.1 ++ [rel],
          st.2 ++ [{ localPath := walkPath source (rel.splitOn PathSeparator),
                      remote := Join [target, rel], action := "upload".toList }]) ∧
      (source ≠ ['.'] → source ≠ [PathSeparator] →
        walkPath source (rel.splitOn PathSeparator) = source ++ sep ++ rel) ∧
      (source = ['.'] → walkPath source (rel.splitOn PathSeparator) = rel) := by
  obtain ⟨n, ns, hsplit, hn, hk⟩ := isRelKey_splitOn hrel
  rw [hsplit]
  have hpath : walkPath source (n :: ns) =
      if source = ['.'] then rel
      else if source = [PathSeparator] then PathSeparator :: rel
      else source ++ sep ++ rel := by
    by_cases hdot : source = ['.']
    · rw [if_pos hdot, hdot, walkPath_dot n ns hn, hk]
    · by_cases hroot : source = [PathSeparator]
      · rw [if_neg hdot, if_pos hroot, hroot, walkPath_root n ns hn, hk]
      · rw [if_neg hdot, if_neg hroot, walkPath_names (n :: ns) hn source hS hdot hroot, hk,
          intercalate_names]
        simp [slashJoin, sep]
  have hkey : relKey source (walkPath source (n :: ns)) = rel := by
    rw [hpath]
    by_cases hdot : source = ['.']
    · rw [if_pos hdot, hdot]; rfl
    · have hd' : source ≠ ".".toList := hdot
      by_cases hroot : source = [PathSeparator]
      · rw [if_neg hdot, if_pos hroot, hroot]
        have : relKey [PathSeparator] (PathSeparator :: rel) =
            TrimPrefix (TrimPrefix (PathSeparator :: rel) sep) sep := by
          have hne : ([PathSeparator] : Str) ≠ ".".toList := by decide
          simp only [relKey, hne, ne_eq, not_false_eq_true, if_true, sep]
        rw [this, TrimPrefix_sep_cons, isRelKey_TrimPrefix_sep rel hrel]
      · rw [if_neg hdot, if_neg hroot]
        simp only [relKey, hd', ne_eq, not_false_eq_true, if_true]
        rw [List.append_assoc, TrimPrefix_append, TrimPrefix_append]
  have hjoin : Join [source, rel] = walkPath source (n :: ns) := by
    rw [hpath]
    by_cases hdot : source = ['.']
    · rw [if_pos hdot, hdot, Join_dot_relKey rel hrel]
    · by_cases hroot : source = [PathSeparator]
      · rw [if_neg hdot, if_pos hroot, hroot, Join_root_relKey rel hrel]
      · rw [if_neg hdot, if_neg hroot, Join_relKey source rel hS hdot hroot hrel]
  refine ⟨hkey, ?_, ?_, ?_⟩
  · simp only [walkFn, Bool.false_eq_true, if_false, hkey, hjoin]
  · intro hdot hroot
    rw [hpath, if_neg hdot, if_neg hroot]
  · intro hdot
    rw [hpath, if_pos hdot]

theorem relative_key_of_visited_file_witness :
    relKey "/drone/src/public".toList
        (walkPath "/drone/src/public".toList
          ("css/.hidden.css".toList.splitOn PathSeparator)) = "css/.hidden.css".toList ∧
      walkPath "/drone/src/public".toList ("css/.hidden.css".toList.splitOn PathSeparator) =
        "/drone/src/public/css/.hidden.css".toList :=
  have h := relative_key_of_visited_file "/drone/src/public".toList "site".toList
    "css/.hidden.css".toList ([[]], [zeroJob]) (by decide) (by decide)
  ⟨h.1, h.2.2.1 (by decide) (by decide)⟩

/-! ## `runJobs`: the steps, case by case -/

theorem countP_set {α : Type} (p : α → Bool) (l : List α) (i : Nat) (a b : α)
    (h : l[i]? = some a) :
    (l.set i b).countP p + (if p a then 1 else 0) = l.countP p + (if p b then 1 else 0) := by
  induction l generalizing i with
  | nil => simp at h
  | cons x xs ih =>
    cases i with
    | zero =>
      simp only [List.getElem?_cons_zero, Option.some.injEq] at h
      subst h
      simp only [List.set_cons_zero, List.countP_cons]
      omega
    | succ i =>
      simp only [List.getElem?_cons_succ] at h
      have := ih i h
      simp only [List.set_cons_succ, List.countP_cons]
      omega

/-- The steps of the main goroutine. -/
theorem stepMain_cases (c : RunConfig) (s s1 : RunState) (h : stepMain c s = some s1) :
    (∃ i, s.pc = MainPc.dispatch i ∧ i < c.jobs.length ∧ s.slots < c.MaxConcurrency ∧
        s1 = { s with slots := s.slots + 1, pc := MainPc.spawn i }) ∨
    (∃ i, s.pc = MainPc.spawn i ∧
        s1 = { s with workers := s.workers ++ [Phase.started],
                      pc := MainPc.dispatch (i + 1) }) ∨
    (∃ i, s.pc = MainPc.dispatch i ∧ ¬ i < c.jobs.length ∧ s1 = { s with pc := MainPc.collect }) ∨
    (∃ r rs, s.pc = MainPc.collect ∧ s.collected.length < c.jobs.length ∧ s.results = r :: rs ∧
        r.2 = true ∧
        s1 = { s with results := rs, collected := r :: s.collected, pc := MainPc.exited,
                      trace := Event.exit :: s.trace }) ∨
    (∃ r rs, s.pc = MainPc.collect ∧ s.collected.length < c.jobs.length ∧ s.results = r :: rs ∧
        r.2 = false ∧ s1 = { s with results := rs, collected := r :: s.collected }) ∨
    (∃ j, s.pc = MainPc.collect ∧ ¬ s.collected.length < c.jobs.length ∧
        s.invalidateJob = some j ∧
        s1 = { s with pc := MainPc.invalidating,
                      trace := Event.invalidate j.remote :: s.trace }) ∨
    (s.pc = MainPc.collect ∧ ¬ s.collected.length < c.jobs.length ∧ s.invalidateJob = none ∧
        s1 = { s with pc := MainPc.finished }) ∨
    (s.pc = MainPc.invalidating ∧ c.invalidateFails = true ∧
        s1 = { s with pc := MainPc.exited, trace := Event.exit :: s.trace }) ∨
    (s.pc = MainPc.invalidating ∧ c.invalidateFails = false ∧
        s1 = { s with pc := MainPc.finished }) := by
  unfold stepMain at h
  split at h
  · rename_i i hpc
    split at h
    · split at h
      · simp only [Option.some.injEq] at h
        exact Or.inl ⟨i, hpc, ‹_›, ‹_›, h.symm⟩
      · simp at h
    · simp only [Option.some.injEq] at h
      exact Or.inr (Or.inr (Or.inl ⟨i, hpc, ‹_›, h.symm⟩))
  · rename_i i hpc
    simp only [Option.some.injEq] at h
    exact Or.inr (Or.inl ⟨i, hpc, h.symm⟩)
  · rename_i hpc
    split at h
    · split at h
      · simp at h
      · rename_i r rs hres
        split at h
        · simp only [Option.some.injEq] at h
          exact Or.inr (Or.inr (Or.inr (Or.inl ⟨r, rs, hpc, ‹_›, hres, ‹_›, h.symm⟩)))
        · simp only [Option.some.injEq] at h
          exact Or.inr (Or.inr (Or.inr (Or.inr (Or.inl ⟨r, rs, hpc, ‹_›, hres, by simpa using ‹¬ r.2 = true›,
            h.symm⟩))))
    · split at h
      · rename_i j hj
        simp only [Option.some.injEq] at h
        exact Or.inr (Or.inr (Or.inr (Or.inr (Or.inr (Or.inl ⟨j, hpc, ‹_›, hj, h.symm⟩)))))
      · rename_i hj
        simp only [Option.some.injEq] at h
        exact Or.inr (Or.inr (Or.inr (Or.inr (Or.inr (Or.inr (Or.inl ⟨hpc, ‹_›, hj, h.symm⟩))))))
  · rename_i hpc
    split at h
    · simp only [Option.some.injEq] at h
      exact Or.inr (Or.inr (Or.inr (Or.inr (Or.inr (Or.inr (Or.inr (Or.inl ⟨hpc, ‹_›, h.symm⟩)))))))
    · simp only [Option.some.injEq] at h
      exact Or.inr (Or.inr (Or.inr (Or.inr (Or.inr (Or.inr (Or.inr (Or.inr
        ⟨hpc, by simpa using ‹¬ c.invalidateFails = true›, h.symm⟩)))))))
  · simp at h
  · simp at h

/-- The steps of the goroutine of job `i`. -/
theorem stepWorker_cases (c : RunConfig) (i : Nat) (s s1 : RunState)
    (h : stepWorker c i s = some s1) :
    s.pc ≠ MainPc.exited ∧ ∃ j, c.jobs[i]? = some j ∧
    ((∃ call, s.workers[i]? = some Phase.started ∧ callOf j = some call ∧
        s1 = { s with workers := s.workers.set i Phase.calling,
                      trace := Event.call i call :: s.trace }) ∨
     (s.workers[i]? = some Phase.started ∧ callOf j = none ∧
        s1 = { s with workers := s.workers.set i (Phase.returned false),
                      invalidateJob :=
                        if j.action = "invalidateCloudFront".toList then some j
                        else s.invalidateJob }) ∨
     (s.workers[i]? = some Phase.calling ∧
        s1 = { s with workers := s.workers.set i (Phase.returned (c.fails i)),
                      trace := Event.ret i (c.fails i) :: s.trace }) ∨
     (∃ err, s.workers[i]? = some (Phase.returned err) ∧ s.results.length < c.jobs.length ∧
        s1 = { s with workers := s.workers.set i Phase.sent,
                      results := s.results ++ [(i, err)] }) ∨
     (s.workers[i]? = some Phase.sent ∧ 0 < s.slots ∧
        s1 = { s with workers := s.workers.set i Phase.released, slots := s.slots - 1 })) := by
  unfold stepWorker at h
  split at h
  · simp at h
  · rename_i hpc
    refine ⟨hpc, ?_⟩
    split at h
    · rename_i j hw hj
      refine ⟨j, hj, ?_⟩
      split at h
      · rename_i call hcall
        simp only [Option.some.injEq] at h
        exact Or.inl ⟨call, hw, hcall, h.symm⟩
      · rename_i hcall
        simp only [Option.some.injEq] at h
        exact Or.inr (Or.inl ⟨hw, hcall, h.symm⟩)
    · rename_i j hw hj
      simp only [Option.some.injEq] at h
      exact ⟨j, hj, Or.inr (Or.inr (Or.inl ⟨hw, h.symm⟩))⟩
    · rename_i err j hw hj
      split at h
      · simp only [Option.some.injEq] at h
        exact ⟨j, hj, Or.inr (Or.inr (Or.inr (Or.inl ⟨err, hw, ‹_›, h.symm⟩)))⟩
      · simp at h
    · rename_i j hw hj
      split at h
      · simp only [Option.some.injEq] at h
        exact ⟨j, hj, Or.inr (Or.inr (Or.inr (Or.inr ⟨hw, ‹_›, h.symm⟩)))⟩
      · simp at h
    · simp at h

theorem runJobs_append_single (c : RunConfig) (l : Label) :
    ∀ (a : List Label) (x : RunState),
      runJobs c (a ++ [l]) x = (runJobs c a x).bind (fun y => step c l y) := by
  intro a
  induction a with
  | nil =>
    intro x
    simp only [List.nil_append, runJobs, Option.some_bind]
    cases step c l x <;> rfl
  | cons b bs ihb =>
    intro x
    simp only [List.cons_append, runJobs]
    cases step c b x with
    | none => rfl
    | some y => exact ihb y

theorem reachable_step (c : RunConfig) (l : Label) (s s1 : RunState) (hr : Reachable c s)
    (hst : step c l s = some s1) : Reachable c s1 := by
  obtain ⟨sch0, h0⟩ := hr
  exact ⟨sch0 ++ [l], by rw [runJobs_append_single, h0, Option.some_bind, hst]⟩

/-- A property that holds at the start and is kept by every step holds in every state
the run can be in. -/
theorem reachable_induction (c : RunConfig) (P : RunState → Prop) (h0 : P RunState.init)
    (hstep : ∀ l s s1, Reachable c s → P s → step c l s = some s1 → P s1)
    (s : RunState) (hs : Reachable c s) : P s := by
  obtain ⟨sched, hs⟩ := hs
  have key : ∀ (sched : List Label) (s0 : RunState), Reachable c s0 → P s0 →
      runJobs c sched s0 = some s → P s := by
    intro sched
    induction sched with
    | nil =>
      intro s0 _ hp he
      simp only [runJobs, Option.some.injEq] at he
      exact he ▸ hp
    | cons l ls ih =>
      intro s0 hr hp he
      simp only [runJobs] at he
      cases hst : step c l s0 with
      | none => simp [hst] at he
      | some s1 =>
        simp only [hst] at he
        exact ih s1 (reachable_step c l s0 s1 hr hst) (hstep l s0 s1 hr hp hst) he
  exact key sched RunState.init ⟨[], rfl⟩ h0 hs

/-! ## `runJobs`: what every state of a run satisfies -/

theorem getElem?_set_self_of {α : Type} (l : List α) (i : Nat) (a b : α)
    (h : l[i]? = some a) : (l.set i b)[i]? = some b := by
  have hi : i < l.length := by
    by_contra hn
    rw [List.getElem?_eq_none (by omega)] at h
    simp at h
  simp [List.getElem?_set, hi]

theorem getElem?_set_other {α : Type} (l : List α) (i k : Nat) (b : α) (h : k ≠ i) :
    (l.set i b)[k]? = l[k]? := by
  simp [List.getElem?_set, Ne.symm h]

theorem lt_of_getElem? {α : Type} (l : List α) (i : Nat) (a : α) (h : l[i]? = some a) :
    i < l.length := by
  by_contra hn
  rw [List.getElem?_eq_none (by omega)] at h
  simp at h

theorem runInv_init (c : RunConfig) : RunInv c RunState.init where
  len := by simp [RunState.init]
  lenDispatch := by
    intro i h
    simp only [RunState.init, MainPc.dispatch.injEq, false_or, or_false] at h
    rcases h with h | h
    · simp [RunState.init, h]
    · exact absurd h (by simp)
  spawnLt := by simp [RunState.init]
  lenAfter := by
    intro h
    exact absurd rfl (h 0).1
  slots := by simp [RunState.init, pendingSlot]
  cap := by simp [RunState.init]
  sentCount := by simp [RunState.init]
  res := by simp [RunState.init]
  nodup := by simp [RunState.init]
  retd := by simp [RunState.init]
  callg := by simp [RunState.init]
  ok := by simp [RunState.init]
  all := by simp [RunState.init]
  inv := by simp [RunState.init]

theorem getElem?_append_started (l : List Phase) (k : Nat) (ph : Phase)
    (h : (l ++ [Phase.started])[k]? = some ph) (hne : ph ≠ Phase.started) :
    l[k]? = some ph := by
  by_cases hk : k < l.length
  · rwa [List.getElem?_append_left hk] at h
  · rw [List.getElem?_append_right (by omega)] at h
    by_cases h0 : k - l.length = 0
    · rw [h0] at h
      simp only [List.getElem?_cons_zero, Option.some.injEq] at h
      exact absurd h.symm hne
    · obtain ⟨m, hm⟩ : ∃ m, k - l.length = m + 1 := ⟨k - l.length - 1, by omega⟩
      rw [hm] at h
      simp at h

theorem runInv_stepMain (c : RunConfig) (s s1 : RunState) (hi : RunInv c s)
    (h : stepMain c s = some s1) : RunInv c s1 := by
  have hcount : s.workers.countP isSent ≤ s.workers.length := List.countP_le_length _
  have hslots := hi.slots
  rcases stepMain_cases c s s1 h with
    ⟨i, hpc, hlt, hsl, rfl⟩ | ⟨i, hpc, rfl⟩ | ⟨i, hpc, hlt, rfl⟩ |
    ⟨r, rs, hpc, hlt, hres, hr, rfl⟩ |
    ⟨r, rs, hpc, hlt, hres, hr, rfl⟩ | ⟨j, hpc, hlt, hj, rfl⟩ | ⟨hpc, hlt, hj, rfl⟩ |
    ⟨hpc, hf, rfl⟩ | ⟨hpc, hf, rfl⟩
  · -- dispatch: a slot of jobChan is taken
    have hl := hi.lenDispatch i (Or.inl hpc)
    exact
      { len := hi.len
        lenDispatch := fun k hk => by
          simp only [MainPc.spawn.injEq, false_or] at hk
          rcases hk with hk | hk
          · exact absurd hk (by simp)
          · exact hk ▸ hl
        spawnLt := fun k hk => by
          simp only [MainPc.spawn.injEq] at hk
          exact hk ▸ hlt
        lenAfter := fun hh => absurd rfl (hh i).2
        slots := by
          simp only [hpc, pendingSlot] at hslots ⊢
          omega
        cap := by simp only; omega
        sentCount := hi.sentCount
        res := hi.res
        nodup := hi.nodup
        retd := hi.retd
        callg := hi.callg
        ok := fun _ => by simp [hl.2]
        all := by simp
        inv := hi.inv }
  · -- dispatch: the goroutine is started
    have hl := hi.lenDispatch i (Or.inr hpc)
    have hlt := hi.spawnLt i hpc
    refine
      { len := by simp only [List.length_append, List.length_singleton]; omega
        lenDispatch := ?_
        spawnLt := by simp
        lenAfter := fun hh => absurd rfl (hh (i + 1)).1
        slots := by
          simp only [hpc, pendingSlot] at hslots
          simp [List.countP_append, hslots, holdsSlot, pendingSlot]
        cap := hi.cap
        sentCount := by simpa [List.countP_append, isSent] using hi.sentCount
        res := ?_
        nodup := hi.nodup
        retd := fun k e hk => hi.retd k e (getElem?_append_started _ _ _ hk (by simp))
        callg := fun k hk => hi.callg k (getElem?_append_started _ _ _ hk (by simp))
        ok := fun _ => by simp [hl.2]
        all := by simp
        inv := hi.inv }
    · intro k hk
      have h1 := hl.1
      simp at hk
      simp only [List.length_append, List.length_singleton]
      exact ⟨by omega, hl.2⟩
    · intro r hr
      obtain ⟨⟨ph, hph, hs⟩, he⟩ := hi.res r hr
      refine ⟨⟨ph, ?_, hs⟩, he⟩
      simp only
      rw [List.getElem?_append_left (lt_of_getElem? _ _ _ hph)]
      exact hph
  · -- the dispatch loop ends
    have hl := hi.lenDispatch i (Or.inl hpc)
    exact
      { len := hi.len
        lenDispatch := by simp
        spawnLt := by simp
        lenAfter := fun _ => by have := hi.len; simp only; omega
        slots := by
          simp only [hpc, pendingSlot] at hslots ⊢
          omega
        cap := hi.cap
        sentCount := hi.sentCount
        res := hi.res
        nodup := hi.nodup
        retd := hi.retd
        callg := hi.callg
        ok := fun _ => by simp [hl.2]
        all := by simp
        inv := hi.inv }
  · -- the collect loop receives a result with an error
    have hla := hi.lenAfter (by simp [hpc])
    have hperm : (rs ++ r :: s.collected).Perm (s.results ++ s.collected) := by
      rw [hres]; exact List.perm_middle
    exact
      { len := hi.len
        lenDispatch := by simp
        spawnLt := by simp
        lenAfter := fun _ => hla
        slots := by
          simp only [hpc, pendingSlot] at hslots ⊢
          omega
        cap := hi.cap
        sentCount := by
          have := hi.sentCount
          simp only [hres, List.length_cons] at this ⊢
          omega
        res := fun x hx => hi.res x (hperm.subset hx)
        nodup := (hperm.map Prod.fst).nodup_iff.mpr hi.nodup
        retd := hi.retd
        callg := hi.callg
        ok := by simp
        all := by simp
        inv := hi.inv }
  · -- the collect loop receives a result without error
    have hla := hi.lenAfter (by simp [hpc])
    have hperm : (rs ++ r :: s.collected).Perm (s.results ++ s.collected) := by
      rw [hres]; exact List.perm_middle
    exact
      { len := hi.len
        lenDispatch := by simp [hpc]
        spawnLt := by simp [hpc]
        lenAfter := fun _ => hla
        slots := hi.slots
        cap := hi.cap
        sentCount := by
          have := hi.sentCount
          simp only [hres, List.length_cons] at this ⊢
          omega
        res := fun x hx => hi.res x (hperm.subset hx)
        nodup := (hperm.map Prod.fst).nodup_iff.mpr hi.nodup
        retd := hi.retd
        callg := hi.callg
        ok := by
          intro _ x hx
          rcases List.mem_cons.mp hx with rfl | hx
          · exact hr
          · exact hi.ok (by simp [hpc]) x hx
        all := by simp [hpc]
        inv := hi.inv }
  · -- all results are in: client.Invalidate is called
    have hla := hi.lenAfter (by simp [hpc])
    have hsc := hi.sentCount
    exact
      { len := hi.len
        lenDispatch := by simp
        spawnLt := by simp
        lenAfter := fun _ => hla
        slots := by
          simp only [hpc, pendingSlot] at hslots ⊢
          omega
        cap := hi.cap
        sentCount := hi.sentCount
        res := hi.res
        nodup := hi.nodup
        retd := hi.retd
        callg := hi.callg
        ok := fun _ => hi.ok (by simp [hpc])
        all := fun _ => by simp only; omega
        inv := hi.inv }
  · -- all results are in and there is nothing to invalidate
    have hla := hi.lenAfter (by simp [hpc])
    have hsc := hi.sentCount
    exact
      { len := hi.len
        lenDispatch := by simp
        spawnLt := by simp
        lenAfter := fun _ => hla
        slots := by
          simp only [hpc, pendingSlot] at hslots ⊢
          omega
        cap := hi.cap
        sentCount := hi.sentCount
        res := hi.res
        nodup := hi.nodup
        retd := hi.retd
        callg := hi.callg
        ok := fun _ => hi.ok (by simp [hpc])
        all := fun _ => by simp only; omega
        inv := hi.inv }
  · -- client.Invalidate returns an error
    have hla := hi.lenAfter (by simp [hpc])
    exact
      { len := hi.len
        lenDispatch := by simp
        spawnLt := by simp
        lenAfter := fun _ => hla
        slots := by
          simp only [hpc, pendingSlot] at hslots ⊢
          omega
        cap := hi.cap
        sentCount := hi.sentCount
        res := hi.res
        nodup := hi.nodup
        retd := hi.retd
        callg := hi.callg
        ok := by simp
        all := by simp
        inv := hi.inv }
  · -- client.Invalidate returns without error
    have hla := hi.lenAfter (by simp [hpc])
    exact
      { len := hi.len
        lenDispatch := by simp
        spawnLt := by simp
        lenAfter := fun _ => hla
        slots := by
          simp only [hpc, pendingSlot] at hslots ⊢
          omega
        cap := hi.cap
        sentCount := hi.sentCount
        res := hi.res
        nodup := hi.nodup
        retd := hi.retd
        callg := hi.callg
        ok := fun _ => hi.ok (by simp [hpc])
        all := fun _ => hi.all (Or.inl hpc)
        inv := hi.inv }

theorem getElem?_set_cases {α : Type} (l : List α) (i k : Nat) (b x : α)
    (h : (l.set i b)[k]? = some x) : (k = i ∧ x = b) ∨ (k ≠ i ∧ l[k]? = some x) := by
  by_cases hk : k = i
  · subst hk
    have hlt : k < l.length := by
      have := lt_of_getElem? _ _ _ h
      simpa using this
    rw [List.getElem?_set] at h
    simp only [if_true, hlt] at h
    exact Or.inl ⟨rfl, (Option.some.inj h).symm⟩
  · rw [getElem?_set_other l i k b hk] at h
    exact Or.inr ⟨hk, h⟩

theorem sent_after_set (l : List Phase) (i : Nat) (a b : Phase) (k : Nat)
    (hw : l[i]? = some a) (hab : isSent a = true → isSent b = true)
    (h : ∃ ph, l[k]? = some ph ∧ isSent ph = true) :
    ∃ ph, (l.set i b)[k]? = some ph ∧ isSent ph = true := by
  obtain ⟨ph, hph, hs⟩ := h
  by_cases hk : k = i
  · subst hk
    rw [hw] at hph
    have : a = ph := Option.some.inj hph
    subst this
    exact ⟨b, getElem?_set_self_of l k a b hw, hab hs⟩
  · exact ⟨ph, by rw [getElem?_set_other l i k b hk]; exact hph, hs⟩

theorem runInv_stepWorker (c : RunConfig) (i : Nat) (s s1 : RunState) (hi : RunInv c s)
    (h : stepWorker c i s = some s1) : RunInv c s1 := by
  obtain ⟨hpc, j, hj, hcase⟩ := stepWorker_cases c i s s1 h
  rcases hcase with ⟨call, hw, hcall, rfl⟩ | ⟨hw, hcall, rfl⟩ | ⟨hw, rfl⟩ |
    ⟨err, hw, hlen, rfl⟩ | ⟨hw, hsl, rfl⟩
  · -- the client call is issued
    have hh := countP_set holdsSlot s.workers i _ Phase.calling hw
    have hs := countP_set isSent s.workers i _ Phase.calling hw
    simp only [holdsSlot, isSent, if_true, Bool.false_eq_true, if_false] at hh hs
    exact
      { len := by simpa using hi.len
        lenDispatch := fun k hk => by simpa using hi.lenDispatch k hk
        spawnLt := hi.spawnLt
        lenAfter := fun hk => by simpa using hi.lenAfter hk
        slots := by have := hi.slots; simp only; omega
        cap := hi.cap
        sentCount := by simp only; rw [hi.sentCount]; omega
        res := fun r hr =>
          ⟨sent_after_set _ _ _ _ _ hw (by simp [isSent]) (hi.res r hr).1, (hi.res r hr).2⟩
        nodup := hi.nodup
        retd := fun k e hk => by
          rcases getElem?_set_cases _ _ _ _ _ hk with ⟨_, h2⟩ | ⟨_, h2⟩
          · simp at h2
          · exact hi.retd k e h2
        callg := fun k hk => by
          rcases getElem?_set_cases _ _ _ _ _ hk with ⟨rfl, _⟩ | ⟨_, h2⟩
          · exact ⟨j, call, hj, hcall⟩
          · exact hi.callg k h2
        ok := hi.ok
        all := hi.all
        inv := hi.inv }
  · -- no client call for this action
    have hh := countP_set holdsSlot s.workers i _ (Phase.returned false) hw
    have hs := countP_set isSent s.workers i _ (Phase.returned false) hw
    simp only [holdsSlot, isSent, if_true, Bool.false_eq_true, if_false] at hh hs
    exact
      { len := by simpa using hi.len
        lenDispatch := fun k hk => by simpa using hi.lenDispatch k hk
        spawnLt := hi.spawnLt
        lenAfter := fun hk => by simpa using hi.lenAfter hk
        slots := by have := hi.slots; simp only; omega
        cap := hi.cap
        sentCount := by simp only; rw [hi.sentCount]; omega
        res := fun r hr =>
          ⟨sent_after_set _ _ _ _ _ hw (by simp [isSent]) (hi.res r hr).1, (hi.res r hr).2⟩
        nodup := hi.nodup
        retd := fun k e hk => by
          rcases getElem?_set_cases _ _ _ _ _ hk with ⟨rfl, h2⟩ | ⟨_, h2⟩
          · simp only [Phase.returned.injEq] at h2
            simp [errOf, hj, hcall, h2]
          · exact hi.retd k e h2
        callg := fun k hk => by
          rcases getElem?_set_cases _ _ _ _ _ hk with ⟨_, h2⟩ | ⟨_, h2⟩
          · simp at h2
          · exact hi.callg k h2
        ok := hi.ok
        all := hi.all
        inv := fun j' hj' => by
          simp only at hj'
          split at hj'
          · rename_i ha
            simp only [Option.some.injEq] at hj'
            subst hj'
            exact ⟨List.getElem?_mem hj, ha⟩
          · exact hi.inv j' hj' }
  · -- the client call returns
    have hh := countP_set holdsSlot s.workers i _ (Phase.returned (c.fails i)) hw
    have hs := countP_set isSent s.workers i _ (Phase.returned (c.fails i)) hw
    simp only [holdsSlot, isSent, if_true, Bool.false_eq_true, if_false] at hh hs
    exact
      { len := by simpa using hi.len
        lenDispatch := fun k hk => by simpa using hi.lenDispatch k hk
        spawnLt := hi.spawnLt
        lenAfter := fun hk => by simpa using hi.lenAfter hk
        slots := by have := hi.slots; simp only; omega
        cap := hi.cap
        sentCount := by simp only; rw [hi.sentCount]; omega
        res := fun r hr =>
          ⟨sent_after_set _ _ _ _ _ hw (by simp [isSent]) (hi.res r hr).1, (hi.res r hr).2⟩
        nodup := hi.nodup
        retd := fun k e hk => by
          rcases getElem?_set_cases _ _ _ _ _ hk with ⟨rfl, h2⟩ | ⟨_, h2⟩
          · simp only [Phase.returned.injEq] at h2
            obtain ⟨j2, call, hj2, hcall⟩ := hi.callg k hw
            simp [errOf, hj2, hcall, h2]
          · exact hi.retd k e h2
        callg := fun k hk => by
          rcases getElem?_set_cases _ _ _ _ _ hk with ⟨_, h2⟩ | ⟨_, h2⟩
          · simp at h2
          · exact hi.callg k h2
        ok := hi.ok
        all := hi.all
        inv := hi.inv }
  · -- the result is sent
    have hh := countP_set holdsSlot s.workers i _ Phase.sent hw
    have hs := countP_set isSent s.workers i _ Phase.sent hw
    simp only [holdsSlot, isSent, if_true, Bool.false_eq_true, if_false] at hh hs
    have hnot : i ∉ (s.results ++ s.collected).map Prod.fst := by
      intro hm
      obtain ⟨r, hr, rfl⟩ := List.mem_map.mp hm
      obtain ⟨⟨ph, hph, hsent⟩, _⟩ := hi.res r hr
      rw [hw] at hph
      have := Option.some.inj hph
      subst this
      simp [isSent] at hsent
    have hperm : (s.results ++ [(i, err)] ++ s.collected).Perm
        ((i, err) :: (s.results ++ s.collected)) := by
      rw [List.append_assoc]
      exact List.perm_middle
    exact
      { len := by simpa using hi.len
        lenDispatch := fun k hk => by simpa using hi.lenDispatch k hk
        spawnLt := hi.spawnLt
        lenAfter := fun hk => by simpa using hi.lenAfter hk
        slots := by have := hi.slots; simp only; omega
        cap := hi.cap
        sentCount := by
          have := hi.sentCount
          simp only [List.length_append, List.length_singleton]
          omega
        res := fun r hr => by
          rcases List.mem_cons.mp (hperm.subset hr) with rfl | hr
          · exact ⟨⟨Phase.sent, getElem?_set_self_of _ _ _ _ hw, rfl⟩, hi.retd i err hw⟩
          · exact ⟨sent_after_set _ _ _ _ _ hw (by simp [isSent]) (hi.res r hr).1,
              (hi.res r hr).2⟩
        nodup := by
          refine (hperm.map Prod.fst).nodup_iff.mpr ?_
          simp only [List.map_cons]
          exact List.nodup_cons.mpr ⟨hnot, hi.nodup⟩
        retd := fun k e hk => by
          rcases getElem?_set_cases _ _ _ _ _ hk with ⟨_, h2⟩ | ⟨_, h2⟩
          · simp at h2
          · exact hi.retd k e h2
        callg := fun k hk => by
          rcases getElem?_set_cases _ _ _ _ _ hk with ⟨_, h2⟩ | ⟨_, h2⟩
          · simp at h2
          · exact hi.callg k h2
        ok := hi.ok
        all := hi.all
        inv := hi.inv }
  · -- the slot is released
    have hh := countP_set holdsSlot s.workers i _ Phase.released hw
    have hs := countP_set isSent s.workers i _ Phase.released hw
    simp only [holdsSlot, isSent, if_true, Bool.false_eq_true, if_false] at hh hs
    have hcap := hi.cap
    exact
      { len := by simpa using hi.len
        lenDispatch := fun k hk => by simpa using hi.lenDispatch k hk
        spawnLt := hi.spawnLt
        lenAfter := fun hk => by simpa using hi.lenAfter hk
        slots := by have := hi.slots; simp only; omega
        cap := by have := hi.cap; simp only; omega
        sentCount := by simp only; rw [hi.sentCount]; omega
        res := fun r hr =>
          ⟨sent_after_set _ _ _ _ _ hw (by simp [isSent]) (hi.res r hr).1, (hi.res r hr).2⟩
        nodup := hi.nodup
        retd := fun k e hk => by
          rcases getElem?_set_cases _ _ _ _ _ hk with ⟨_, h2⟩ | ⟨_, h2⟩
          · simp at h2
          · exact hi.retd k e h2
        callg := fun k hk => by
          rcases getElem?_set_cases _ _ _ _ _ hk with ⟨_, h2⟩ | ⟨_, h2⟩
          · simp at h2
          · exact hi.callg k h2
        ok := hi.ok
        all := hi.all
        inv := hi.inv }

/-- Every state of a run satisfies the invariant. -/
theorem runInv_reachable (c : RunConfig) (s : RunState) (hs : Reachable c s) : RunInv c s := by
  refine reachable_induction c (RunInv c) (runInv_init c) ?_ s hs
  intro l s0 s1 _ hi hst
  cases l with
  | main => exact runInv_stepMain c s0 s1 hi hst
  | worker i => exact runInv_stepWorker c i s0 s1 hi hst

/-! ## `runJobs`: the events of a run -/

theorem mem_of_nodup_bounded (l : List Nat) (n : Nat) (hn : l.Nodup)
    (hb : ∀ x ∈ l, x < n) (hl : n ≤ l.length) : ∀ i, i < n → i ∈ l := by
  intro i hi
  have hsub : l.toFinset ⊆ Finset.range n := by
    intro x hx
    rw [List.mem_toFinset] at hx
    exact Finset.mem_range.mpr (hb x hx)
  have hcard : (Finset.range n).card ≤ l.toFinset.card := by
    rw [List.toFinset_card_of_nodup hn, Finset.card_range]
    exact hl
  have heq := Finset.eq_of_subset_of_card_le hsub hcard
  have : i ∈ l.toFinset := by
    rw [heq]; exact Finset.mem_range.mpr hi
  exact List.mem_toFinset.mp this

/-- Once the collect loop has received `len(p.jobs)` results: the channel is empty,
every goroutine has sent its result, and the result of every job has been received. -/
theorem all_collected (c : RunConfig) (s : RunState) (hi : RunInv c s)
    (hn : c.jobs.length ≤ s.collected.length) :
    s.collected.length = c.jobs.length ∧ s.results = [] ∧
      s.workers.length = c.jobs.length ∧ (∀ ph ∈ s.workers, isSent ph = true) ∧
      (∀ i, i < c.jobs.length → (i, errOf c i) ∈ s.collected) := by
  have h1 := hi.sentCount
  have h2 : s.workers.countP isSent ≤ s.workers.length := List.countP_le_length _
  have h3 := hi.len
  have hres : s.results = [] := List.length_eq_zero.mp (by omega)
  have hlen : s.workers.length = c.jobs.length := by omega
  have hcl : s.collected.length = c.jobs.length := by omega
  have hall : ∀ ph ∈ s.workers, isSent ph = true := by
    have : s.workers.countP isSent = s.workers.length := by omega
    exact List.countP_eq_length.mp this
  refine ⟨hcl, hres, hlen, hall, ?_⟩
  intro i hlt
  have hnd : (s.collected.map Prod.fst).Nodup := by
    have := hi.nodup
    rwa [hres, List.nil_append] at this
  have hb : ∀ x ∈ s.collected.map Prod.fst, x < c.jobs.length := by
    intro x hx
    obtain ⟨r, hr, rfl⟩ := List.mem_map.mp hx
    obtain ⟨⟨ph, hph, _⟩, _⟩ := hi.res r (List.mem_append_right _ hr)
    have := lt_of_getElem? _ _ _ hph
    omega
  have hm := mem_of_nodup_bounded _ _ hnd hb (by simp [hcl]) i hlt
  obtain ⟨r, hr, rfl⟩ := List.mem_map.mp hm
  have := (hi.res r (List.mem_append_right _ hr)).2
  rw [← this]
  exact hr

theorem phaseSat_set (l : List Phase) (i k : Nat) (a b : Phase) (P : Phase → Bool)
    (hw : l[i]? = some a) :
    phaseSat (l.set i b) k P = if k = i then P b else phaseSat l k P := by
  by_cases hk : k = i
  · subst hk
    simp [phaseSat, getElem?_set_self_of l k a b hw]
  · simp [phaseSat, getElem?_set_other l i k b hk, hk]

theorem phaseSat_of (l : List Phase) (i : Nat) (a : Phase) (P : Phase → Bool)
    (hw : l[i]? = some a) : phaseSat l i P = P a := by
  simp [phaseSat, hw]

theorem phaseSat_append_started (l : List Phase) (k : Nat) (P : Phase → Bool)
    (hP : P Phase.started = false) :
    phaseSat (l ++ [Phase.started]) k P = phaseSat l k P := by
  by_cases hk : k < l.length
  · simp [phaseSat, List.getElem?_append_left hk]
  · have h1 : l[k]? = none := List.getElem?_eq_none (by omega)
    by_cases h0 : k = l.length
    · subst h0
      simp [phaseSat, hP]
    · have h2 : (l ++ [Phase.started])[k]? = none :=
        List.getElem?_eq_none (by simp; omega)
      simp [phaseSat, h1, h2]

theorem phaseSat_of_all (l : List Phase) (i : Nat) (P : Phase → Bool)
    (hall : ∀ ph ∈ l, P ph = true) (hi : i < l.length) : phaseSat l i P = true := by
  have : l[i]? = some l[i] := List.getElem?_eq_getElem hi
  simp only [phaseSat, this]
  exact hall _ (List.getElem_mem _)

/-- Once `client.Invalidate` has been called, every goroutine has sent its result. -/
theorem sent_of_invalidating (c : RunConfig) (s : RunState) (hi : RunInv c s)
    (hne : s.pc ≠ MainPc.exited)
    (hpc : s.pc = MainPc.invalidating ∨ s.pc = MainPc.finished ∨ s.pc = MainPc.exited)
    (i : Nat) (ph : Phase) (hw : s.workers[i]? = some ph) : isSent ph = true := by
  have hpc' : s.pc = MainPc.invalidating ∨ s.pc = MainPc.finished := by
    rcases hpc with h | h | h
    · exact Or.inl h
    · exact Or.inr h
    · exact absurd h hne
  have hall := (all_collected c s hi (by rw [hi.all hpc'])).2.2.2.1
  exact hall ph (List.getElem?_mem hw)

theorem traceInv_init (c : RunConfig) : TraceInv c RunState.init where
  callsMem := by simp [RunState.init]
  callsLe := by simp [RunState.init]
  callsOne := by simp [RunState.init, phaseSat]
  retsMem := by simp [RunState.init]
  retsOne := by simp [RunState.init, phaseSat]
  tail := by simp [RunState.init]

/-- What the events before `client.Invalidate` satisfy when the call is made. -/
theorem invalidateOK_of_collected (c : RunConfig) (s : RunState) (hi : RunInv c s)
    (ht : TraceInv c s) (hpc : s.pc = MainPc.collect)
    (hn : ¬ s.collected.length < c.jobs.length) (j : job) (hj : s.invalidateJob = some j) :
    InvalidateOK c j.remote s.trace := by
  obtain ⟨_, _, hlen, hall, hcol⟩ := all_collected c s hi (by omega)
  have hok := hi.ok (by simp [hpc])
  have hfail : ∀ (i : Nat) (j : job) (call : ClientCall), c.jobs[i]? = some j →
      callOf j = some call → c.fails i = false := by
    intro i j call hj hcall
    have hlt : i < c.jobs.length := lt_of_getElem? _ _ _ hj
    have := hok _ (hcol i hlt)
    simpa [errOf, hj, hcall] using this
  refine ⟨⟨j, (hi.inv j hj).1, (hi.inv j hj).2, rfl⟩, ?_, ?_⟩
  · intro i j call hj hcall
    have hlt : i < s.workers.length := by
      rw [hlen]; exact lt_of_getElem? _ _ _ hj
    have hb : phaseSat s.workers i hasBegun = true :=
      phaseSat_of_all _ _ _ (fun ph hph => by
        have := hall ph hph
        cases ph <;> simp_all [isSent, hasBegun]) hlt
    have hp : phaseSat s.workers i isPastCall = true :=
      phaseSat_of_all _ _ _ (fun ph hph => by
        have := hall ph hph
        cases ph <;> simp_all [isSent, isPastCall]) hlt
    refine ⟨ht.callsOne i j call hb hj hcall, ?_⟩
    have := ht.retsOne i j call hp hj hcall
    rwa [hfail i j call hj hcall] at this
  · intro i e he
    obtain ⟨h1, _, j, call, hj, hcall⟩ := ht.retsMem i e he
    rw [h1]
    exact hfail i j call hj hcall

theorem traceInv_stepMain (c : RunConfig) (s s1 : RunState) (hi : RunInv c s)
    (ht : TraceInv c s) (h : stepMain c s = some s1) : TraceInv c s1 := by
  have hnotail : ∀ {P : Prop}, s.pc ≠ MainPc.invalidating → s.pc ≠ MainPc.finished →
      s.pc ≠ MainPc.exited → ∀ (post : List Event) (r : Str) (pre : List Event),
      s.trace = post ++ Event.invalidate r :: pre → P := by
    intro P h1 h2 h3 post r pre he
    rcases (ht.tail post r pre he).1 with h | h | h
    · exact absurd h h1
    · exact absurd h h2
    · exact absurd h h3
  rcases stepMain_cases c s s1 h with
    ⟨i, hpc, hlt, hsl, rfl⟩ | ⟨i, hpc, rfl⟩ | ⟨i, hpc, hlt, rfl⟩ |
    ⟨r, rs, hpc, hlt, hres, hr, rfl⟩ |
    ⟨r, rs, hpc, hlt, hres, hr, rfl⟩ | ⟨j, hpc, hlt, hj, rfl⟩ | ⟨hpc, hlt, hj, rfl⟩ |
    ⟨hpc, hf, rfl⟩ | ⟨hpc, hf, rfl⟩
  · exact
      { callsMem := ht.callsMem
        callsLe := ht.callsLe
        callsOne := ht.callsOne
        retsMem := ht.retsMem
        retsOne := ht.retsOne
        tail := fun post r pre he =>
          hnotail (by simp [hpc]) (by simp [hpc]) (by simp [hpc]) post r pre he }
  · exact
      { callsMem := fun k call hk => by
          simpa [phaseSat_append_started _ _ hasBegun rfl] using ht.callsMem k call hk
        callsLe := ht.callsLe
        callsOne := fun k j call hk => by
          simp only [phaseSat_append_started _ _ hasBegun rfl] at hk
          exact ht.callsOne k j call hk
        retsMem := fun k e hk => by
          simpa [phaseSat_append_started _ _ isPastCall rfl] using ht.retsMem k e hk
        retsOne := fun k j call hk => by
          simp only [phaseSat_append_started _ _ isPastCall rfl] at hk
          exact ht.retsOne k j call hk
        tail := fun post r pre he =>
          hnotail (by simp [hpc]) (by simp [hpc]) (by simp [hpc]) post r pre he }
  · exact
      { callsMem := ht.callsMem
        callsLe := ht.callsLe
        callsOne := ht.callsOne
        retsMem := ht.retsMem
        retsOne := ht.retsOne
        tail := fun post r pre he =>
          hnotail (by simp [hpc]) (by simp [hpc]) (by simp [hpc]) post r pre he }
  · exact
      { callsMem := fun k call hk => ht.callsMem k call (by simpa using hk)
        callsLe := fun k call => by simpa using ht.callsLe k call
        callsOne := fun k j call hk hj hcall =>
          List.mem_cons_of_mem _ (ht.callsOne k j call hk hj hcall)
        retsMem := fun k e hk => ht.retsMem k e (by simpa using hk)
        retsOne := fun k j call hk hj hcall =>
          List.mem_cons_of_mem _ (ht.retsOne k j call hk hj hcall)
        tail := fun post r pre he => by
          cases post with
          | nil => simp at he
          | cons e post =>
            simp only [List.cons_append, List.cons.injEq] at he
            exact hnotail (by simp [hpc]) (by simp [hpc]) (by simp [hpc]) post r pre he.2 }
  · exact
      { callsMem := ht.callsMem
        callsLe := ht.callsLe
        callsOne := ht.callsOne
        retsMem := ht.retsMem
        retsOne := ht.retsOne
        tail := fun post r pre he =>
          hnotail (by simp [hpc]) (by simp [hpc]) (by simp [hpc]) post r pre he }
  · exact
      { callsMem := fun k call hk => ht.callsMem k call (by simpa using hk)
        callsLe := fun k call => by simpa using ht.callsLe k call
        callsOne := fun k j call hk hj hcall =>
          List.mem_cons_of_mem _ (ht.callsOne k j call hk hj hcall)
        retsMem := fun k e hk => ht.retsMem k e (by simpa using hk)
        retsOne := fun k j call hk hj hcall =>
          List.mem_cons_of_mem _ (ht.retsOne k j call hk hj hcall)
        tail := fun post r pre he => by
          cases post with
          | nil =>
            simp only [List.nil_append, List.cons.injEq, Event.invalidate.injEq] at he
            obtain ⟨hr, hpre⟩ := he
            subst hr; subst hpre
            exact ⟨Or.inl rfl, Or.inl rfl, invalidateOK_of_collected c s hi ht hpc hlt j hj⟩
          | cons e post =>
            simp only [List.cons_append, List.cons.injEq] at he
            exact hnotail (by simp [hpc]) (by simp [hpc]) (by simp [hpc]) post r pre he.2 }
  · exact
      { callsMem := ht.callsMem
        callsLe := ht.callsLe
        callsOne := ht.callsOne
        retsMem := ht.retsMem
        retsOne := ht.retsOne
        tail := fun post r pre he =>
          hnotail (by simp [hpc]) (by simp [hpc]) (by simp [hpc]) post r pre he }
  · exact
      { callsMem := fun k call hk => ht.callsMem k call (by simpa using hk)
        callsLe := fun k call => by simpa using ht.callsLe k call
        callsOne := fun k j call hk hj hcall =>
          List.mem_cons_of_mem _ (ht.callsOne k j call hk hj hcall)
        retsMem := fun k e hk => ht.retsMem k e (by simpa using hk)
        retsOne := fun k j call hk hj hcall =>
          List.mem_cons_of_mem _ (ht.retsOne k j call hk hj hcall)
        tail := fun post r pre he => by
          cases post with
          | nil => simp at he
          | cons e post =>
            simp only [List.cons_append, List.cons.injEq] at he
            obtain ⟨he1, he2⟩ := he
            obtain ⟨_, hpost, hok⟩ := ht.tail post r pre he2
            rcases hpost with rfl | ⟨_, hx⟩
            · exact ⟨Or.inr (Or.inr rfl), Or.inr ⟨by rw [← he1], rfl⟩, hok⟩
            · rw [hpc] at hx; exact absurd hx (by simp) }
  · exact
      { callsMem := ht.callsMem
        callsLe := ht.callsLe
        callsOne := ht.callsOne
        retsMem := ht.retsMem
        retsOne := ht.retsOne
        tail := fun post r pre he => by
          obtain ⟨_, hpost, hok⟩ := ht.tail post r pre he
          rcases hpost with rfl | ⟨_, hx⟩
          · exact ⟨Or.inr (Or.inl rfl), Or.inl rfl, hok⟩
          · rw [hpc] at hx; exact absurd hx (by simp) }

theorem traceInv_stepWorker (c : RunConfig) (i : Nat) (s s1 : RunState) (hi : RunInv c s)
    (ht : TraceInv c s) (h : stepWorker c i s = some s1) : TraceInv c s1 := by
  obtain ⟨hpc, j, hj, hcase⟩ := stepWorker_cases c i s s1 h
  -- while a goroutine has not sent its result, `client.Invalidate` has not been called
  have hnotail : ∀ {P : Prop} (ph : Phase), s.workers[i]? = some ph → isSent ph = false →
      ∀ (post : List Event) (r : Str) (pre : List Event),
      s.trace = post ++ Event.invalidate r :: pre → P := by
    intro P ph hw hns post r pre he
    have := sent_of_invalidating c s hi hpc (ht.tail post r pre he).1 i ph hw
    rw [hns] at this
    exact absurd this (by simp)
  rcases hcase with ⟨call, hw, hcall, rfl⟩ | ⟨hw, hcall, rfl⟩ | ⟨hw, rfl⟩ |
    ⟨err, hw, hlen, rfl⟩ | ⟨hw, hsl, rfl⟩
  · -- the client call is issued
    have hold : phaseSat s.workers i hasBegun = false := by
      rw [phaseSat_of _ _ _ _ hw]; rfl
    have hold2 : phaseSat s.workers i isPastCall = false := by
      rw [phaseSat_of _ _ _ _ hw]; rfl
    have hnew : Event.call i call ∉ s.trace := fun hm => by
      have := (ht.callsMem i call hm).1
      rw [hold] at this
      exact absurd this (by simp)
    exact
      { callsMem := fun k call' hk => by
          simp only [phaseSat_set _ _ _ _ _ _ hw]
          rcases List.mem_cons.mp hk with he | hk
          · simp only [Event.call.injEq] at he
            obtain ⟨rfl, rfl⟩ := he
            simp only [if_true]
            exact ⟨rfl, j, hj, hcall⟩
          · obtain ⟨h1, h2⟩ := ht.callsMem k call' hk
            by_cases hki : k = i
            · subst hki; rw [hold] at h1; exact absurd h1 (by simp)
            · simp only [hki, if_false]; exact ⟨h1, h2⟩
        callsLe := fun k call' => by
          simp only [List.count_cons]
          by_cases he : Event.call i call = Event.call k call'
          · rw [← he, List.count_eq_zero_of_not_mem hnew]
            simp
          · have := ht.callsLe k call'
            simp only [beq_iff_eq, he, if_false]
            omega
        callsOne := fun k j' call' hk hj' hcall' => by
          simp only [phaseSat_set _ _ _ _ _ _ hw] at hk
          by_cases hki : k = i
          · subst hki
            rw [hj] at hj'
            have := Option.some.inj hj'
            subst this
            rw [hcall] at hcall'
            have := Option.some.inj hcall'
            subst this
            exact List.mem_cons_self _ _
          · simp only [hki, if_false] at hk
            exact List.mem_cons_of_mem _ (ht.callsOne k j' call' hk hj' hcall')
        retsMem := fun k e hk => by
          simp only [phaseSat_set _ _ _ _ _ _ hw]
          have hk' : Event.ret k e ∈ s.trace := by simpa using hk
          obtain ⟨h1, h2, h3⟩ := ht.retsMem k e hk'
          by_cases hki : k = i
          · subst hki; rw [hold2] at h2; exact absurd h2 (by simp)
          · simp only [hki, if_false]; exact ⟨h1, h2, h3⟩
        retsOne := fun k j' call' hk hj' hcall' => by
          simp only [phaseSat_set _ _ _ _ _ _ hw] at hk
          by_cases hki : k = i
          · simp [hki, isPastCall] at hk
          · simp only [hki, if_false] at hk
            exact List.mem_cons_of_mem _ (ht.retsOne k j' call' hk hj' hcall')
        tail := fun post r pre he => by
          cases post with
          | nil => simp at he
          | cons e post =>
            simp only [List.cons_append, List.cons.injEq] at he
            exact hnotail _ hw rfl post r pre he.2 }
  · -- no client call for this action
    have hold : phaseSat s.workers i hasBegun = false := by
      rw [phaseSat_of _ _ _ _ hw]; rfl
    have hold2 : phaseSat s.workers i isPastCall = false := by
      rw [phaseSat_of _ _ _ _ hw]; rfl
    exact
      { callsMem := fun k call' hk => by
          simp only [phaseSat_set _ _ _ _ _ _ hw]
          obtain ⟨h1, h2⟩ := ht.callsMem k call' hk
          by_cases hki : k = i
          · subst hki; rw [hold] at h1; exact absurd h1 (by simp)
          · simp only [hki, if_false]; exact ⟨h1, h2⟩
        callsLe := ht.callsLe
        callsOne := fun k j' call' hk hj' hcall' => by
          simp only [phaseSat_set _ _ _ _ _ _ hw] at hk
          by_cases hki : k = i
          · subst hki
            rw [hj] at hj'
            have := Option.some.inj hj'
            subst this
            rw [hcall] at hcall'
            exact absurd hcall' (by simp)
          · simp only [hki, if_false] at hk
            exact ht.callsOne k j' call' hk hj' hcall'
        retsMem := fun k e hk => by
          simp only [phaseSat_set _ _ _ _ _ _ hw]
          obtain ⟨h1, h2, h3⟩ := ht.retsMem k e hk
          by_cases hki : k = i
          · subst hki; rw [hold2] at h2; exact absurd h2 (by simp)
          · simp only [hki, if_false]; exact ⟨h1, h2, h3⟩
        retsOne := fun k j' call' hk hj' hcall' => by
          simp only [phaseSat_set _ _ _ _ _ _ hw] at hk
          by_cases hki : k = i
          · subst hki
            rw [hj] at hj'
            have := Option.some.inj hj'
            subst this
            rw [hcall] at hcall'
            exact absurd hcall' (by simp)
          · simp only [hki, if_false] at hk
            exact ht.retsOne k j' call' hk hj' hcall'
        tail := fun post r pre he => hnotail _ hw rfl post r pre he }
  · -- the client call returns
    have hold : phaseSat s.workers i hasBegun = true := by
      rw [phaseSat_of _ _ _ _ hw]; rfl
    have hold2 : phaseSat s.workers i isPastCall = false := by
      rw [phaseSat_of _ _ _ _ hw]; rfl
    exact
      { callsMem := fun k call' hk => by
          simp only [phaseSat_set _ _ _ _ _ _ hw]
          have hk' : Event.call k call' ∈ s.trace := by simpa using hk
          obtain ⟨h1, h2⟩ := ht.callsMem k call' hk'
          by_cases hki : k = i
          · simp only [hki, if_true]; exact ⟨rfl, hki ▸ h2⟩
          · simp only [hki, if_false]; exact ⟨h1, h2⟩
        callsLe := fun k call' => by simpa using ht.callsLe k call'
        callsOne := fun k j' call' hk hj' hcall' => by
          simp only [phaseSat_set _ _ _ _ _ _ hw] at hk
          by_cases hki : k = i
          · subst hki
            exact List.mem_cons_of_mem _ (ht.callsOne k j' call' hold hj' hcall')
          · simp only [hki, if_false] at hk
            exact List.mem_cons_of_mem _ (ht.callsOne k j' call' hk hj' hcall')
        retsMem := fun k e hk => by
          simp only [phaseSat_set _ _ _ _ _ _ hw]
          rcases List.mem_cons.mp hk with he | hk
          · simp only [Event.ret.injEq] at he
            obtain ⟨rfl, rfl⟩ := he
            obtain ⟨j2, call2, hj2, hc2⟩ := hi.callg k hw
            exact ⟨rfl, by simp [isPastCall], j2, call2, hj2, hc2⟩
          · obtain ⟨h1, h2, h3⟩ := ht.retsMem k e hk
            by_cases hki : k = i
            · subst hki; rw [hold2] at h2; exact absurd h2 (by simp)
            · simp only [hki, if_false]; exact ⟨h1, h2, h3⟩
        retsOne := fun k j' call' hk hj' hcall' => by
          simp only [phaseSat_set _ _ _ _ _ _ hw] at hk
          by_cases hki : k = i
          · subst hki
            exact List.mem_cons_self _ _
          · simp only [hki, if_false] at hk
            exact List.mem_cons_of_mem _ (ht.retsOne k j' call' hk hj' hcall')
        tail := fun post r pre he => by
          cases post with
          | nil => simp at he
          | cons e post =>
            simp only [List.cons_append, List.cons.injEq] at he
            exact hnotail _ hw rfl post r pre he.2 }
  · -- the result is sent
    have hold : phaseSat s.workers i hasBegun = true := by
      rw [phaseSat_of _ _ _ _ hw]; rfl
    have hold2 : phaseSat s.workers i isPastCall = true := by
      rw [phaseSat_of _ _ _ _ hw]; rfl
    exact
      { callsMem := fun k call' hk => by
          simp only [phaseSat_set _ _ _ _ _ _ hw]
          obtain ⟨h1, h2⟩ := ht.callsMem k call' hk
          by_cases hki : k = i
          · simp only [hki, if_true]; exact ⟨rfl, hki ▸ h2⟩
          · simp only [hki, if_false]; exact ⟨h1, h2⟩
        callsLe := ht.callsLe
        callsOne := fun k j' call' hk hj' hcall' => by
          simp only [phaseSat_set _ _ _ _ _ _ hw] at hk
          by_cases hki : k = i
          · subst hki
            exact ht.callsOne k j' call' hold hj' hcall'
          · simp only [hki, if_false] at hk
            exact ht.callsOne k j' call' hk hj' hcall'
        retsMem := fun k e hk => by
          simp only [phaseSat_set _ _ _ _ _ _ hw]
          obtain ⟨h1, h2, h3⟩ := ht.retsMem k e hk
          by_cases hki : k = i
          · simp only [hki, if_true]; exact ⟨hki ▸ h1, rfl, hki ▸ h3⟩
          · simp only [hki, if_false]; exact ⟨h1, h2, h3⟩
        retsOne := fun k j' call' hk hj' hcall' => by
          simp only [phaseSat_set _ _ _ _ _ _ hw] at hk
          by_cases hki : k = i
          · subst hki
            exact ht.retsOne k j' call' hold2 hj' hcall'
          · simp only [hki, if_false] at hk
            exact ht.retsOne k j' call' hk hj' hcall'
        tail := fun post r pre he => hnotail _ hw rfl post r pre he }
  · -- the slot is released
    have hold : phaseSat s.workers i hasBegun = true := by
      rw [phaseSat_of _ _ _ _ hw]; rfl
    have hold2 : phaseSat s.workers i isPastCall = true := by
      rw [phaseSat_of _ _ _ _ hw]; rfl
    exact
      { callsMem := fun k call' hk => by
          simp only [phaseSat_set _ _ _ _ _ _ hw]
          obtain ⟨h1, h2⟩ := ht.callsMem k call' hk
          by_cases hki : k = i
          · simp only [hki, if_true]; exact ⟨rfl, hki ▸ h2⟩
          · simp only [hki, if_false]; exact ⟨h1, h2⟩
        callsLe := ht.callsLe
        callsOne := fun k j' call' hk hj' hcall' => by
          simp only [phaseSat_set _ _ _ _ _ _ hw] at hk
          by_cases hki : k = i
          · subst hki
            exact ht.callsOne k j' call' hold hj' hcall'
          · simp only [hki, if_false] at hk
            exact ht.callsOne k j' call' hk hj' hcall'
        retsMem := fun k e hk => by
          simp only [phaseSat_set _ _ _ _ _ _ hw]
          obtain ⟨h1, h2, h3⟩ := ht.retsMem k e hk
          by_cases hki : k = i
          · simp only [hki, if_true]; exact ⟨hki ▸ h1, rfl, hki ▸ h3⟩
          · simp only [hki, if_false]; exact ⟨h1, h2, h3⟩
        retsOne := fun k j' call' hk hj' hcall' => by
          simp only [phaseSat_set _ _ _ _ _ _ hw] at hk
          by_cases hki : k = i
          · subst hki
            exact ht.retsOne k j' call' hold2 hj' hcall'
          · simp only [hki, if_false] at hk
            exact ht.retsOne k j' call' hk hj' hcall'
        tail := ht.tail }

/-- Every state of a run satisfies the invariant on its events. -/
theorem traceInv_reachable (c : RunConfig) (s : RunState) (hs : Reachable c s) :
    TraceInv c s := by
  refine reachable_induction c (TraceInv c) (traceInv_init c) ?_ s hs
  intro l s0 s1 hr ht hst
  have hi := runInv_reachable c s0 hr
  cases l with
  | main => exact traceInv_stepMain c s0 s1 hi ht hst
  | worker i => exact traceInv_stepWorker c i s0 s1 hi ht hst

/-! ## `runJobs`: the run goes on until it returns or exits -/

theorem countP_lt_length_of_mem {α : Type} (p : α → Bool) (l : List α) (x : α) (hx : x ∈ l)
    (hp : p x = false) : l.countP p < l.length := by
  have hle : l.countP p ≤ l.length := List.countP_le_length _
  have hne : l.countP p ≠ l.length := by
    intro he
    have := List.countP_eq_length.mp he x hx
    rw [hp] at this
    exact absurd this (by simp)
  omega

/-- A goroutine that still holds its slot can take a step. -/
theorem worker_enabled (c : RunConfig) (s : RunState) (hi : RunInv c s)
    (hpc : s.pc ≠ MainPc.exited) (k : Nat) (ph : Phase) (hw : s.workers[k]? = some ph)
    (hh : holdsSlot ph = true) : ∃ s1, stepWorker c k s = some s1 := by
  have hk : k < c.jobs.length := Nat.lt_of_lt_of_le (lt_of_getElem? _ _ _ hw) hi.len
  have hj : c.jobs[k]? = some c.jobs[k] := List.getElem?_eq_getElem hk
  have hmem : ph ∈ s.workers := List.getElem?_mem hw
  cases ph with
  | started =>
    cases hc : callOf c.jobs[k] with
    | none => exact Option.isSome_iff_exists.mp (by simp [stepWorker, hpc, hw, hj, hc])
    | some call => exact Option.isSome_iff_exists.mp (by simp [stepWorker, hpc, hw, hj, hc])
  | calling => exact Option.isSome_iff_exists.mp (by simp [stepWorker, hpc, hw, hj])
  | returned e =>
    have h1 := countP_lt_length_of_mem isSent s.workers _ hmem rfl
    have h2 := hi.sentCount
    have h3 := hi.len
    have hlt : s.results.length < c.jobs.length := by omega
    exact Option.isSome_iff_exists.mp (by simp [stepWorker, hpc, hw, hj, hlt])
  | sent =>
    have h1 : 0 < s.workers.countP holdsSlot :=
      List.countP_pos_iff.mpr ⟨_, hmem, rfl⟩
    have hlt : 0 < s.slots := by rw [hi.slots]; omega
    exact Option.isSome_iff_exists.mp (by simp [stepWorker, hpc, hw, hj, hlt])
  | released => simp [holdsSlot] at hh

/-- With `MaxConcurrency >= 1` the run is never stuck: as long as `runJobs` has neither
returned nor exited, some thread can take a step. -/
theorem progress (c : RunConfig) (s : RunState) (hi : RunInv c s)
    (hcap : 1 ≤ c.MaxConcurrency) (hf : s.pc ≠ MainPc.finished) (he : s.pc ≠ MainPc.exited) :
    ∃ l s1, step c l s = some s1 := by
  cases hpc : s.pc with
  | dispatch i =>
    by_cases hlt : i < c.jobs.length
    · by_cases hsl : s.slots < c.MaxConcurrency
      · exact ⟨Label.main, Option.isSome_iff_exists.mp (by simp [step, stepMain, hpc, hlt, hsl])⟩
      · have hpos : 0 < s.workers.countP holdsSlot := by
          have := hi.slots
          simp only [hpc, pendingSlot] at this
          omega
        obtain ⟨ph, hmem, hh⟩ := List.countP_pos_iff.mp hpos
        obtain ⟨k, hk⟩ := List.getElem?_of_mem hmem
        obtain ⟨s1, h1⟩ := worker_enabled c s hi he k ph hk hh
        exact ⟨Label.worker k, s1, h1⟩
    · exact ⟨Label.main, Option.isSome_iff_exists.mp (by simp [step, stepMain, hpc, hlt])⟩
  | spawn i => exact ⟨Label.main, Option.isSome_iff_exists.mp (by simp [step, stepMain, hpc])⟩
  | collect =>
    by_cases hlt : s.collected.length < c.jobs.length
    · cases hres : s.results with
      | nil =>
        have h1 := hi.sentCount
        have h2 := hi.lenAfter (by simp [hpc])
        rw [hres] at h1
        simp only [List.length_nil, Nat.zero_add] at h1
        have hne : s.workers.countP isSent ≠ s.workers.length := by omega
        have hex : ∃ ph ∈ s.workers, isSent ph = false := by
          by_contra hcon
          apply hne
          apply List.countP_eq_length.mpr
          intro ph hph
          by_contra hx
          exact hcon ⟨ph, hph, by simpa using hx⟩
        obtain ⟨ph, hmem, hns⟩ := hex
        obtain ⟨k, hk⟩ := List.getElem?_of_mem hmem
        have hh : holdsSlot ph = true := by
          cases ph <;> simp_all [isSent, holdsSlot]
        obtain ⟨s1, h1⟩ := worker_enabled c s hi he k ph hk hh
        exact ⟨Label.worker k, s1, h1⟩
      | cons r rs =>
        by_cases hr : r.2 = true
        · exact ⟨Label.main, Option.isSome_iff_exists.mp (by simp [step, stepMain, hpc, hlt, hres, hr])⟩
        · exact ⟨Label.main, Option.isSome_iff_exists.mp (by simp [step, stepMain, hpc, hlt, hres, hr])⟩
    · cases hj : s.invalidateJob with
      | none => exact ⟨Label.main, Option.isSome_iff_exists.mp (by simp [step, stepMain, hpc, hlt, hj])⟩
      | some j => exact ⟨Label.main, Option.isSome_iff_exists.mp (by simp [step, stepMain, hpc, hlt, hj])⟩
  | invalidating =>
    by_cases hfl : c.invalidateFails = true
    · exact ⟨Label.main, Option.isSome_iff_exists.mp (by simp [step, stepMain, hpc, hfl])⟩
    · exact ⟨Label.main, Option.isSome_iff_exists.mp (by simp [step, stepMain, hpc, hfl])⟩
  | finished => exact absurd hpc hf
  | exited => exact absurd hpc he

/-! ## `runJobs`: every run is finite -/

theorem sum_rank_set (l : List Phase) (i : Nat) (a b : Phase) (h : l[i]? = some a) :
    ((l.set i b).map Phase.rank).sum + a.rank = (l.map Phase.rank).sum + b.rank := by
  induction l generalizing i with
  | nil => simp at h
  | cons x xs ih =>
    cases i with
    | zero =>
      simp only [List.getElem?_cons_zero, Option.some.injEq] at h
      subst h
      simp only [List.set_cons_zero, List.map_cons, List.sum_cons]
      omega
    | succ i =>
      simp only [List.getElem?_cons_succ] at h
      have := ih i h
      simp only [List.set_cons_succ, List.map_cons, List.sum_cons]
      omega

theorem sum_rank_le (l : List Phase) : (l.map Phase.rank).sum ≤ 4 * l.length := by
  induction l with
  | nil => simp
  | cons x xs ih =>
    have : x.rank ≤ 4 := by cases x <;> simp [Phase.rank]
    simp only [List.map_cons, List.sum_cons, List.length_cons]
    omega

theorem collected_le (c : RunConfig) (s : RunState) (hi : RunInv c s) :
    s.collected.length ≤ c.jobs.length := by
  have h1 := hi.sentCount
  have h2 : s.workers.countP isSent ≤ s.workers.length := List.countP_le_length _
  have h3 := hi.len
  omega

theorem progressOf_le (c : RunConfig) (s : RunState) (hi : RunInv c s) :
    progressOf c s ≤ 7 * c.jobs.length + 3 := by
  have h1 := sum_rank_le s.workers
  have h2 := hi.len
  have h3 := collected_le c s hi
  unfold progressOf
  cases hpc : s.pc with
  | dispatch i =>
    have := (hi.lenDispatch i (Or.inl hpc)).1
    simp only
    omega
  | spawn i =>
    have := (hi.lenDispatch i (Or.inr hpc)).1
    have := hi.spawnLt i hpc
    simp only
    omega
  | collect => simp only; omega
  | invalidating => simp only; omega
  | finished => simp only; omega
  | exited => simp only; omega

/-- Every step brings the run forward. -/
theorem progressOf_step (c : RunConfig) (l : Label) (s s1 : RunState) (hi : RunInv c s)
    (h : step c l s = some s1) : progressOf c s < progressOf c s1 := by
  have hcl := collected_le c s hi
  cases l with
  | main =>
    rcases stepMain_cases c s s1 h with
      ⟨i, hpc, hlt, hsl, rfl⟩ | ⟨i, hpc, rfl⟩ | ⟨i, hpc, hlt, rfl⟩ |
      ⟨r, rs, hpc, hlt, hres, hr, rfl⟩ |
      ⟨r, rs, hpc, hlt, hres, hr, rfl⟩ | ⟨j, hpc, hlt, hj, rfl⟩ | ⟨hpc, hlt, hj, rfl⟩ |
      ⟨hpc, hf, rfl⟩ | ⟨hpc, hf, rfl⟩
    · simp [progressOf, hpc]
    · simp only [progressOf, hpc, List.map_append, List.sum_append, List.map_cons,
        List.map_nil, List.sum_cons, List.sum_nil, Phase.rank]
      omega
    · have := (hi.lenDispatch i (Or.inl hpc)).2
      have h1 := (hi.lenDispatch i (Or.inl hpc)).1
      have h2 := hi.len
      simp only [progressOf, hpc, this, List.length_nil]
      omega
    · simp only [progressOf, hpc, List.length_cons]; omega
    · simp only [progressOf, hpc, List.length_cons]; omega
    · simp only [progressOf, hpc]; omega
    · simp only [progressOf, hpc]; omega
    · simp only [progressOf, hpc]; omega
    · simp only [progressOf, hpc]; omega
  | worker i =>
    obtain ⟨hpc, j, hj, hcase⟩ := stepWorker_cases c i s s1 h
    rcases hcase with ⟨call, hw, hcall, rfl⟩ | ⟨hw, hcall, rfl⟩ | ⟨hw, rfl⟩ |
      ⟨err, hw, hlen, rfl⟩ | ⟨hw, hsl, rfl⟩
    · have hs := sum_rank_set s.workers i _ Phase.calling hw
      simp only [Phase.rank] at hs
      simp only [progressOf]; omega
    · have hs := sum_rank_set s.workers i _ (Phase.returned false) hw
      simp only [Phase.rank] at hs
      simp only [progressOf]; omega
    · have hs := sum_rank_set s.workers i _ (Phase.returned (c.fails i)) hw
      simp only [Phase.rank] at hs
      simp only [progressOf]; omega
    · have hs := sum_rank_set s.workers i _ Phase.sent hw
      simp only [Phase.rank] at hs
      simp only [progressOf]; omega
    · have hs := sum_rank_set s.workers i _ Phase.released hw
      simp only [Phase.rank] at hs
      simp only [progressOf]; omega

/-- A run of `runJobs` takes at most `7 * len(p.jobs) + 3` steps. -/
theorem runJobs_length_le (c : RunConfig) (sched : List Label) (s : RunState)
    (h : runJobs c sched RunState.init = some s) : sched.length ≤ 7 * c.jobs.length + 3 := by
  have key : ∀ (sched : List Label) (s0 : RunState), Reachable c s0 →
      runJobs c sched s0 = some s → progressOf c s0 + sched.length ≤ progressOf c s := by
    intro sched
    induction sched with
    | nil =>
      intro s0 _ he
      simp only [runJobs, Option.some.injEq] at he
      subst he
      simp
    | cons l ls ih =>
      intro s0 hr he
      simp only [runJobs] at he
      cases hst : step c l s0 with
      | none => simp [hst] at he
      | some s1 =>
        simp only [hst] at he
        have hr1 : Reachable c s1 := reachable_step c l s0 s1 hr hst
        have h1 := progressOf_step c l s0 s1 (runInv_reachable c s0 hr) hst
        have h2 := ih s1 hr1 he
        simp only [List.length_cons]
        omega
  have h1 := key sched RunState.init ⟨[], rfl⟩ h
  have h2 := progressOf_le c s (runInv_reachable c s ⟨sched, h⟩)
  omega

/-! ## `runJobs`: the calls issued for a job and the ways the run ends -/

theorem callOf_invalidate (j : job) (h : j.action = "invalidateCloudFront".toList) :
    callOf j = none := by
  have h1 : j.action ≠ "upload".toList := by rw [h]; decide
  have h2 : j.action ≠ "redirect".toList := by rw [h]; decide
  have h3 : j.action ≠ "delete".toList := by rw [h]; decide
  simp only [callOf, h1, h2, h3, if_false]

theorem callsFor_cons_call (i k : Nat) (call : ClientCall) (t : List Event) :
    callsFor k (Event.call i call :: t) =
      if i = k then call :: callsFor k t else callsFor k t := by
  by_cases h : i = k
  · simp [callsFor, List.filterMap_cons, h]
  · simp [callsFor, List.filterMap_cons, h]

theorem callsFor_cons_ret (i k : Nat) (e : Bool) (t : List Event) :
    callsFor k (Event.ret i e :: t) = callsFor k t := by
  simp [callsFor, List.filterMap_cons]

theorem callsFor_cons_invalidate (k : Nat) (r : Str) (t : List Event) :
    callsFor k (Event.invalidate r :: t) = callsFor k t := by
  simp [callsFor, List.filterMap_cons]

theorem callsFor_cons_exit (k : Nat) (t : List Event) :
    callsFor k (Event.exit :: t) = callsFor k t := by
  simp [callsFor, List.filterMap_cons]

/-- In every state of a run, the client calls issued for a job are those its goroutine
has issued: none before it has entered the `if`/`else if` chain, and then exactly the
call its action chooses, if any. -/
theorem callsFor_eq (c : RunConfig) (s : RunState) (hs : Reachable c s) :
    ∀ k, callsFor k s.trace = issuedFor c s k := by
  refine reachable_induction c (fun s => ∀ k, callsFor k s.trace = issuedFor c s k) ?_ ?_ s hs
  · intro k
    simp [RunState.init, callsFor, issuedFor, phaseSat]
  · intro l s0 s1 _ ih hst k
    have ihk := ih k
    cases l with
    | main =>
      rcases stepMain_cases c s0 s1 hst with
        ⟨i, hpc, hlt, hsl, rfl⟩ | ⟨i, hpc, rfl⟩ | ⟨i, hpc, hlt, rfl⟩ |
        ⟨r, rs, hpc, hlt, hres, hr, rfl⟩ |
        ⟨r, rs, hpc, hlt, hres, hr, rfl⟩ | ⟨j, hpc, hlt, hj, rfl⟩ | ⟨hpc, hlt, hj, rfl⟩ |
        ⟨hpc, hf, rfl⟩ | ⟨hpc, hf, rfl⟩
      · exact ihk
      · simp only [issuedFor, phaseSat_append_started _ _ hasBegun rfl]
        exact ihk
      · exact ihk
      · simp only [callsFor_cons_exit]; exact ihk
      · exact ihk
      · simp only [callsFor_cons_invalidate]; exact ihk
      · exact ihk
      · simp only [callsFor_cons_exit]; exact ihk
      · exact ihk
    | worker i =>
      obtain ⟨hpc, j, hj, hcase⟩ := stepWorker_cases c i s0 s1 hst
      rcases hcase with ⟨call, hw, hcall, rfl⟩ | ⟨hw, hcall, rfl⟩ | ⟨hw, rfl⟩ |
        ⟨err, hw, hlen, rfl⟩ | ⟨hw, hsl, rfl⟩
      · have hold : phaseSat s0.workers i hasBegun = false := by
          rw [phaseSat_of _ _ _ _ hw]; rfl
        simp only [callsFor_cons_call, issuedFor, phaseSat_set _ _ _ _ _ _ hw]
        by_cases hki : k = i
        · subst hki
          have h0 : callsFor k s0.trace = [] := by
            rw [ihk]; simp [issuedFor, hold]
          simp [h0, hj, hcall, hasBegun]
        · have hik : ¬ i = k := fun e => hki e.symm
          simp only [hki, hik, if_false]
          exact ihk
      · have hold : phaseSat s0.workers i hasBegun = false := by
          rw [phaseSat_of _ _ _ _ hw]; rfl
        simp only [issuedFor, phaseSat_set _ _ _ _ _ _ hw]
        by_cases hki : k = i
        · subst hki
          have h0 : callsFor k s0.trace = [] := by
            rw [ihk]; simp [issuedFor, hold]
          simp [h0, hj, hcall, hasBegun]
        · simp only [hki, if_false]
          exact ihk
      · have hold : phaseSat s0.workers i hasBegun = true := by
          rw [phaseSat_of _ _ _ _ hw]; rfl
        simp only [callsFor_cons_ret, issuedFor, phaseSat_set _ _ _ _ _ _ hw]
        by_cases hki : k = i
        · subst hki
          rw [ihk]
          simp [issuedFor, hold, hasBegun]
        · simp only [hki, if_false]
          exact ihk
      · have hold : phaseSat s0.workers i hasBegun = true := by
          rw [phaseSat_of _ _ _ _ hw]; rfl
        simp only [issuedFor, phaseSat_set _ _ _ _ _ _ hw]
        by_cases hki : k = i
        · subst hki
          rw [ihk]
          simp [issuedFor, hold, hasBegun]
        · simp only [hki, if_false]
          exact ihk
      · have hold : phaseSat s0.workers i hasBegun = true := by
          rw [phaseSat_of _ _ _ _ hw]; rfl
        simp only [issuedFor, phaseSat_set _ _ _ _ _ _ hw]
        by_cases hki : k = i
        · subst hki
          rw [ihk]
          simp [issuedFor, hold, hasBegun]
        · simp only [hki, if_false]
          exact ihk

theorem endInv_init (c : RunConfig) : EndInv c RunState.init where
  invSet := by simp [RunState.init, phaseSat]
  invd := by simp [RunState.init]
  fin := by simp [RunState.init]
  exd := by simp [RunState.init]

theorem endInv_stepMain (c : RunConfig) (s s1 : RunState) (he : EndInv c s)
    (h : stepMain c s = some s1) : EndInv c s1 := by
  rcases stepMain_cases c s s1 h with
    ⟨i, hpc, hlt, hsl, rfl⟩ | ⟨i, hpc, rfl⟩ | ⟨i, hpc, hlt, rfl⟩ |
    ⟨r, rs, hpc, hlt, hres, hr, rfl⟩ |
    ⟨r, rs, hpc, hlt, hres, hr, rfl⟩ | ⟨j, hpc, hlt, hj, rfl⟩ | ⟨hpc, hlt, hj, rfl⟩ |
    ⟨hpc, hf, rfl⟩ | ⟨hpc, hf, rfl⟩
  · exact { invSet := he.invSet, invd := by simp, fin := by simp, exd := by simp }
  · exact
      { invSet := fun k j hj ha hp => by
          simp only [phaseSat_append_started _ _ isPastCall rfl] at hp
          exact he.invSet k j hj ha hp
        invd := by simp
        fin := by simp
        exd := by simp }
  · exact { invSet := he.invSet, invd := by simp, fin := by simp, exd := by simp }
  · exact
      { invSet := he.invSet
        invd := by simp
        fin := by simp
        exd := fun _ => Or.inl ⟨r, List.mem_cons_self _ _, hr⟩ }
  · exact
      { invSet := he.invSet
        invd := by simp [hpc]
        fin := by simp [hpc]
        exd := by simp [hpc] }
  · exact
      { invSet := he.invSet
        invd := fun _ => ⟨j.remote, List.mem_cons_self _ _⟩
        fin := by simp
        exd := by simp }
  · exact
      { invSet := he.invSet
        invd := by simp
        fin := fun _ => Or.inl hj
        exd := by simp }
  · exact
      { invSet := he.invSet
        invd := by simp
        fin := by simp
        exd := fun _ => by
          obtain ⟨r, hr⟩ := he.invd hpc
          exact Or.inr ⟨r, List.mem_cons_of_mem _ hr⟩ }
  · exact
      { invSet := he.invSet
        invd := by simp
        fin := fun _ => Or.inr (he.invd hpc)
        exd := by simp }

theorem endInv_stepWorker (c : RunConfig) (i : Nat) (s s1 : RunState) (hi : RunInv c s)
    (he : EndInv c s) (h : stepWorker c i s = some s1) : EndInv c s1 := by
  obtain ⟨hpc, j, hj, hcase⟩ := stepWorker_cases c i s s1 h
  rcases hcase with ⟨call, hw, hcall, rfl⟩ | ⟨hw, hcall, rfl⟩ | ⟨hw, rfl⟩ |
    ⟨err, hw, hlen, rfl⟩ | ⟨hw, hsl, rfl⟩
  · exact
      { invSet := fun k j' hj' ha hp => by
          simp only [phaseSat_set _ _ _ _ _ _ hw] at hp
          by_cases hki : k = i
          · simp [hki, isPastCall] at hp
          · simp only [hki, if_false] at hp
            exact he.invSet k j' hj' ha hp
        invd := fun h1 => by
          obtain ⟨r, hr⟩ := he.invd h1
          exact ⟨r, List.mem_cons_of_mem _ hr⟩
        fin := fun h1 => (he.fin h1).imp id (fun ⟨r, hr⟩ => ⟨r, List.mem_cons_of_mem _ hr⟩)
        exd := fun h1 => absurd h1 hpc }
  · exact
      { invSet := fun k j' hj' ha hp => by
          simp only [phaseSat_set _ _ _ _ _ _ hw] at hp
          by_cases hki : k = i
          · subst hki
            rw [hj] at hj'
            have := Option.some.inj hj'
            subst this
            simp [ha]
          · simp only [hki, if_false] at hp
            have := he.invSet k j' hj' ha hp
            simp only
            split
            · rfl
            · exact this
        invd := he.invd
        fin := fun h1 => by
          have := sent_of_invalidating c s hi hpc (Or.inr (Or.inl h1)) i _ hw
          simp [isSent] at this
        exd := fun h1 => absurd h1 hpc }
  · exact
      { invSet := fun k j' hj' ha hp => by
          simp only [phaseSat_set _ _ _ _ _ _ hw] at hp
          by_cases hki : k = i
          · subst hki
            obtain ⟨j2, call, hj2, hc2⟩ := hi.callg k hw
            rw [hj'] at hj2
            have := Option.some.inj hj2
            subst this
            rw [callOf_invalidate j' ha] at hc2
            exact absurd hc2 (by simp)
          · simp only [hki, if_false] at hp
            exact he.invSet k j' hj' ha hp
        invd := fun h1 => by
          obtain ⟨r, hr⟩ := he.invd h1
          exact ⟨r, List.mem_cons_of_mem _ hr⟩
        fin := fun h1 => (he.fin h1).imp id (fun ⟨r, hr⟩ => ⟨r, List.mem_cons_of_mem _ hr⟩)
        exd := fun h1 => absurd h1 hpc }
  · have hold : phaseSat s.workers i isPastCall = true := by
      rw [phaseSat_of _ _ _ _ hw]; rfl
    exact
      { invSet := fun k j' hj' ha hp => by
          simp only [phaseSat_set _ _ _ _ _ _ hw] at hp
          by_cases hki : k = i
          · subst hki
            exact he.invSet k j' hj' ha hold
          · simp only [hki, if_false] at hp
            exact he.invSet k j' hj' ha hp
        invd := he.invd
        fin := he.fin
        exd := fun h1 => absurd h1 hpc }
  · have hold : phaseSat s.workers i isPastCall = true := by
      rw [phaseSat_of _ _ _ _ hw]; rfl
    exact
      { invSet := fun k j' hj' ha hp => by
          simp only [phaseSat_set _ _ _ _ _ _ hw] at hp
          by_cases hki : k = i
          · subst hki
            exact he.invSet k j' hj' ha hold
          · simp only [hki, if_false] at hp
            exact he.invSet k j' hj' ha hp
        invd := he.invd
        fin := he.fin
        exd := fun h1 => absurd h1 hpc }

/-- Every state of a run satisfies the invariant on the ways the run ends. -/
theorem endInv_reachable (c : RunConfig) (s : RunState) (hs : Reachable c s) :
    EndInv c s := by
  refine reachable_induction c (EndInv c) (endInv_init c) ?_ s hs
  intro l s0 s1 hr he hst
  cases l with
  | main => exact endInv_stepMain c s0 s1 he hst
  | worker i => exact endInv_stepWorker c i s0 s1 (runInv_reachable c s0 hr) he hst

/-- When the job list holds an invalidation job and no upload, redirect or delete call
fails: once `runJobs` has returned or exited, `client.Invalidate` has been called. -/
theorem invalidate_called (c : RunConfig) (s : RunState) (hs : Reachable c s)
    (hjob : ∃ j ∈ c.jobs, j.action = "invalidateCloudFront".toList)
    (hok : ∀ (k : Nat) (j : job) (call : ClientCall), c.jobs[k]? = some j →
      callOf j = some call → c.fails k = false)
    (hpc : s.pc = MainPc.finished ∨ s.pc = MainPc.exited) :
    ∃ r, Event.invalidate r ∈ s.trace := by
  have hi := runInv_reachable c s hs
  have he := endInv_reachable c s hs
  rcases hpc with hf | hx
  · rcases he.fin hf with hnone | hr
    · exfalso
      obtain ⟨j, hj, ha⟩ := hjob
      obtain ⟨i, hji⟩ := List.getElem?_of_mem hj
      obtain ⟨_, _, hlen, hall, _⟩ := all_collected c s hi (by rw [hi.all (Or.inr hf)])
      have hlt : i < s.workers.length := by
        rw [hlen]; exact lt_of_getElem? _ _ _ hji
      have hp : phaseSat s.workers i isPastCall = true :=
        phaseSat_of_all _ _ _ (fun ph hph => by
          have := hall ph hph
          cases ph <;> simp_all [isSent, isPastCall]) hlt
      have := he.invSet i j hji ha hp
      rw [hnone] at this
      simp at this
    · exact hr
  · rcases he.exd hx with ⟨r, hr, hr2⟩ | hr
    · exfalso
      have h2 := (hi.res r (List.mem_append_right _ hr)).2
      rw [hr2] at h2
      unfold errOf at h2
      cases hj : c.jobs[r.1]? with
      | none => simp [hj] at h2
      | some j =>
        cases hc : callOf j with
        | none => simp [hj, hc] at h2
        | some call =>
          have := hok r.1 j call hj hc
          simp [hj, hc, this] at h2
    · exact hr

/-! ## `runJobs`: the claims -/

/-- C8: in every state of a run of `runJobs`, for every job list, every
`MaxConcurrency`, every outcome of the client calls and every schedule, the number of
client calls in flight is at most the number of goroutines that hold a slot of
`jobChan` (a goroutine is started after its slot has been taken and gives it back after
it has sent its result); these slots, with the one taken for a goroutine not started
yet, are the elements of `jobChan`, at most `MaxConcurrency`. -/
theorem in_flight_bounded (c : RunConfig) (sched : List Label) (s : RunState)
    (h : runJobs c sched RunState.init = some s) :
    inFlight s ≤ s.workers.countP holdsSlot ∧
      s.workers.countP holdsSlot + pendingSlot s.pc = s.slots ∧
      s.slots ≤ c.MaxConcurrency ∧ inFlight s ≤ c.MaxConcurrency := by
  have hi := runInv_reachable c s ⟨sched, h⟩
  have key : inFlight s ≤ s.workers.countP holdsSlot := ?_
  · have h1 := hi.slots
    have h2 := hi.cap
    exact ⟨key, h1.symm, h2, by omega⟩
  unfold inFlight
  apply List.countP_mono_left
  intro ph _ hph
  have : ph = Phase.calling := by simpa using hph
  subst this
  rfl

theorem in_flight_bounded_witness :
    inFlight exBusy = 2 ∧
      (inFlight exBusy ≤ exBusy.workers.countP holdsSlot ∧
        exBusy.workers.countP holdsSlot + pendingSlot exBusy.pc = exBusy.slots ∧
        exBusy.slots ≤ exRunConfig.MaxConcurrency ∧
        inFlight exBusy ≤ exRunConfig.MaxConcurrency) :=
  ⟨by decide, in_flight_bounded exRunConfig exBusySchedule exBusy (by decide)⟩

/-- C6: in every state of a run of `runJobs`, for every job list, every outcome of the
client calls and every schedule: (1) when `client.Invalidate(r)` has been called, the
job list holds an `invalidateCloudFront` job with remote `r`, the call of every upload,
redirect and delete job was issued and returned without error before, no call returned
an error, and nothing but `os.Exit(1)` follows; (2) when the job list holds an
`invalidateCloudFront` job and no upload, redirect or delete call fails, then
`client.Invalidate` has been called with the remote of such a job once `runJobs` has
returned or exited, and, with `MaxConcurrency >= 1`, whenever the run has stopped;
(3) when the call of some upload, redirect or delete job is made to fail,
`client.Invalidate` is never called, `runJobs` never returns, and with
`MaxConcurrency >= 1` the run can only stop at `os.Exit(1)`; (4) a run takes at most
`7 * len(p.jobs) + 3` steps. -/
theorem invalidate_after_success_only (c : RunConfig) (sched : List Label) (s : RunState)
    (h : runJobs c sched RunState.init = some s) :
    (∀ (post : List Event) (r : Str) (pre : List Event),
        s.trace = post ++ Event.invalidate r :: pre →
        InvalidateOK c r pre ∧ (post = [] ∨ post = [Event.exit])) ∧
      ((∃ j ∈ c.jobs, j.action = "invalidateCloudFront".toList) →
        (∀ (k : Nat) (j : job) (call : ClientCall), c.jobs[k]? = some j →
          callOf j = some call → c.fails k = false) →
        (s.pc = MainPc.finished ∨ s.pc = MainPc.exited →
          ∃ j ∈ c.jobs, j.action = "invalidateCloudFront".toList ∧
            Event.invalidate j.remote ∈ s.trace) ∧
        (1 ≤ c.MaxConcurrency → (∀ l, step c l s = none) →
          ∃ j ∈ c.jobs, j.action = "invalidateCloudFront".toList ∧
            Event.invalidate j.remote ∈ s.trace)) ∧
      (∀ (k : Nat) (j : job) (call : ClientCall), c.jobs[k]? = some j →
        callOf j = some call → c.fails k = true →
        (∀ r, Event.invalidate r ∉ s.trace) ∧ s.pc ≠ MainPc.finished ∧
        (1 ≤ c.MaxConcurrency → (∀ l, step c l s = none) → s.pc = MainPc.exited)) ∧
      sched.length ≤ 7 * c.jobs.length + 3 := by
  have hr : Reachable c s := ⟨sched, h⟩
  have hi := runInv_reachable c s hr
  have ht := traceInv_reachable c s hr
  have hstop : 1 ≤ c.MaxConcurrency → (∀ l, step c l s = none) →
      s.pc = MainPc.finished ∨ s.pc = MainPc.exited := by
    intro hcap hterm
    by_contra hne
    have hne' : s.pc ≠ MainPc.finished ∧ s.pc ≠ MainPc.exited := by
      constructor
      · intro e; exact hne (Or.inl e)
      · intro e; exact hne (Or.inr e)
    obtain ⟨l, s1, hs1⟩ := progress c s hi hcap hne'.1 hne'.2
    rw [hterm l] at hs1
    exact absurd hs1 (by simp)
  refine ⟨?_, ?_, ?_, runJobs_length_le c sched s h⟩
  · intro post r pre he
    obtain ⟨_, hpost, hok⟩ := ht.tail post r pre he
    exact ⟨hok, hpost.imp id (fun hx => hx.1)⟩
  · intro hjob hok
    have key : s.pc = MainPc.finished ∨ s.pc = MainPc.exited →
        ∃ j ∈ c.jobs, j.action = "invalidateCloudFront".toList ∧
          Event.invalidate j.remote ∈ s.trace := by
      intro hpc
      obtain ⟨r, hm⟩ := invalidate_called c s hr hjob hok hpc
      obtain ⟨post, pre, he⟩ := List.append_of_mem hm
      obtain ⟨_, _, ⟨j, hj, ha, hjr⟩, _⟩ := ht.tail post r pre he
      exact ⟨j, hj, ha, by rw [hjr]; exact hm⟩
    exact ⟨key, fun hcap hterm => key (hstop hcap hterm)⟩
  · intro k j call hj hcall hfail
    have hninv : ∀ r, Event.invalidate r ∉ s.trace := by
      intro r hm
      obtain ⟨post, pre, he⟩ := List.append_of_mem hm
      obtain ⟨_, _, hok⟩ := ht.tail post r pre he
      have h1 := (hok.2.1 k j call hj hcall).2
      have h2 := (ht.retsMem k false (by rw [he]; simp [h1])).1
      rw [hfail] at h2
      exact absurd h2 (by simp)
    have hnf : s.pc ≠ MainPc.finished := by
      intro hf
      have hlen := hi.all (Or.inr hf)
      have hcol := (all_collected c s hi (by omega)).2.2.2.2 k (lt_of_getElem? _ _ _ hj)
      have := hi.ok (by simp [hf]) _ hcol
      simp [errOf, hj, hcall, hfail] at this
    refine ⟨hninv, hnf, ?_⟩
    intro hcap hterm
    rcases hstop hcap hterm with hf | hx
    · exact absurd hf hnf
    · exact hx

theorem invalidate_after_success_only_witness :
    InvalidateOK exRunConfig "/*".toList
        [Event.ret 1 false, Event.ret 2 false,
          Event.call 2 (ClientCall.Delete "site/old.txt".toList),
          Event.call 1
            (ClientCall.Upload "/drone/src/public/a.txt".toList "site/a.txt".toList)] ∧
      (∃ j ∈ exRunConfig.jobs, j.action = "invalidateCloudFront".toList ∧
        Event.invalidate j.remote ∈ exFinished.trace) ∧
      (∀ r, Event.invalidate r ∉ exFailed.trace) ∧ exFailed.pc = MainPc.exited :=
  ⟨((invalidate_after_success_only exRunConfig exSchedule exFinished (by decide)).1
      [] "/*".toList _ rfl).1,
   ((invalidate_after_success_only exRunConfig exSchedule exFinished (by decide)).2.1
      ⟨⟨[], "/*".toList, "invalidateCloudFront".toList⟩, by decide, rfl⟩
      (fun _ _ _ _ _ => rfl)).1 (Or.inl rfl),
   ((invalidate_after_success_only exFailingConfig exFailingSchedule exFailed (by decide)).2.2.1
      2 ⟨[], "site/old.txt".toList, "delete".toList⟩
      (ClientCall.Delete "site/old.txt".toList) (by decide) (by decide) (by decide)).1,
   rfl⟩

/-- C9, as stated, fails: in a complete run of the job list `Exec` builds in which the
upload call returns an error, the main goroutine exits on that result; no client call
has been issued for the delete job (job 2) and its result has not been collected. -/
theorem failed_run_skips_a_job :
    planJobs exPluginCF (exWorld ["site/old.txt".toList] ["a.txt".toList]) = some exPlannedCF ∧
      exAbortConfig.jobs = exPlannedCF.jobs ∧
      runJobs exAbortConfig exAbortSchedule RunState.init = some exAborted ∧
      (∀ l, step exAbortConfig l exAborted = none) ∧
      exAbortConfig.jobs[2]? = some ⟨[], "site/old.txt".toList, "delete".toList⟩ ∧
      callsFor 2 exAborted.trace = [] ∧
      2 ∉ exAborted.collected.map Prod.fst := by
  refine ⟨by decide, rfl, by decide, ?_, by decide, by decide, by decide⟩
  intro l
  cases l with
  | main => rfl
  | worker i => simp [step, stepWorker, exAborted]

/-- C9, amended: in every state of a run of `runJobs`, the client calls issued for an
upload, redirect or delete job are none or exactly the one its action chooses,
`Upload(local, remote)`, `Redirect(local, remote)` or `Delete(remote)`, and no client
call is issued for an `invalidateCloudFront` job by its goroutine; once the collect
loop has ended without `os.Exit(1)`, exactly that one call has been issued for every
upload, redirect and delete job and exactly one result has been collected per job. -/
theorem one_call_per_job (c : RunConfig) (sched : List Label) (s : RunState)
    (h : runJobs c sched RunState.init = some s) :
    (∀ (i : Nat) (j : job), c.jobs[i]? = some j →
        (j.action = "upload".toList →
          callsFor i s.trace = [] ∨
          callsFor i s.trace = [ClientCall.Upload j.localPath j.remote]) ∧
        (j.action = "redirect".toList →
          callsFor i s.trace = [] ∨
          callsFor i s.trace = [ClientCall.Redirect j.localPath j.remote]) ∧
        (j.action = "delete".toList →
          callsFor i s.trace = [] ∨ callsFor i s.trace = [ClientCall.Delete j.remote]) ∧
        (j.action = "invalidateCloudFront".toList → callsFor i s.trace = [])) ∧
      (s.pc = MainPc.invalidating ∨ s.pc = MainPc.finished →
        (∀ (i : Nat) (j : job), c.jobs[i]? = some j →
          (j.action = "upload".toList →
            callsFor i s.trace = [ClientCall.Upload j.localPath j.remote]) ∧
          (j.action = "redirect".toList →
            callsFor i s.trace = [ClientCall.Redirect j.localPath j.remote]) ∧
          (j.action = "delete".toList →
            callsFor i s.trace = [ClientCall.Delete j.remote])) ∧
        (s.collected.map Prod.fst).Perm (List.range c.jobs.length)) := by
  have hr : Reachable c s := ⟨sched, h⟩
  have hi := runInv_reachable c s hr
  have hcalls := callsFor_eq c s hr
  have hup : ∀ j : job, j.action = "upload".toList →
      callOf j = some (ClientCall.Upload j.localPath j.remote) := fun j h1 => by
    simp [callOf, h1]
  have hre : ∀ j : job, j.action = "redirect".toList →
      callOf j = some (ClientCall.Redirect j.localPath j.remote) := fun j h1 => by
    have : j.action ≠ "upload".toList := by rw [h1]; decide
    simp [callOf, h1, this]
  have hde : ∀ j : job, j.action = "delete".toList →
      callOf j = some (ClientCall.Delete j.remote) := fun j h1 => by
    have h2 : j.action ≠ "upload".toList := by rw [h1]; decide
    have h3 : j.action ≠ "redirect".toList := by rw [h1]; decide
    simp [callOf, h1]
  have hcase : ∀ (i : Nat) (j : job) (call : ClientCall), c.jobs[i]? = some j →
      callOf j = some call → callsFor i s.trace = [] ∨ callsFor i s.trace = [call] := by
    intro i j call hj hc
    rw [hcalls i]
    unfold issuedFor
    by_cases hb : phaseSat s.workers i hasBegun = true
    · right; simp [hb, hj, hc]
    · left; simp [hb]
  refine ⟨?_, ?_⟩
  · intro i j hj
    refine ⟨fun ha => hcase i j _ hj (hup j ha), fun ha => hcase i j _ hj (hre j ha),
      fun ha => hcase i j _ hj (hde j ha), fun ha => ?_⟩
    rw [hcalls i]
    unfold issuedFor
    by_cases hb : phaseSat s.workers i hasBegun = true
    · simp [hb, hj, callOf_invalidate j ha]
    · simp [hb]
  · intro hpc
    have hlen := hi.all hpc
    obtain ⟨_, hres, hwl, hall, hcol⟩ := all_collected c s hi (by omega)
    have hone : ∀ (i : Nat) (j : job) (call : ClientCall), c.jobs[i]? = some j →
        callOf j = some call → callsFor i s.trace = [call] := by
      intro i j call hj hc
      have hlt : i < s.workers.length := by
        rw [hwl]; exact lt_of_getElem? _ _ _ hj
      have hb : phaseSat s.workers i hasBegun = true :=
        phaseSat_of_all _ _ _ (fun ph hph => by
          have := hall ph hph
          cases ph <;> simp_all [isSent, hasBegun]) hlt
      rw [hcalls i]
      simp [issuedFor, hb, hj, hc]
    constructor
    · intro i j hj
      exact ⟨fun ha => hone i j _ hj (hup j ha), fun ha => hone i j _ hj (hre j ha),
        fun ha => hone i j _ hj (hde j ha)⟩
    · have hnd : (s.collected.map Prod.fst).Nodup := by
        have := hi.nodup
        rwa [hres, List.nil_append] at this
      rw [List.perm_ext_iff_of_nodup hnd (List.nodup_range _)]
      intro a
      constructor
      · intro ha
        obtain ⟨r, hr, rfl⟩ := List.mem_map.mp ha
        obtain ⟨⟨ph, hph, _⟩, _⟩ := hi.res r (List.mem_append_right _ hr)
        have := lt_of_getElem? _ _ _ hph
        exact List.mem_range.mpr (by omega)
      · intro ha
        exact List.mem_map.mpr ⟨_, hcol a (List.mem_range.mp ha), rfl⟩

theorem one_call_per_job_witness :
    callsFor 1 exFinished.trace =
        [ClientCall.Upload "/drone/src/public/a.txt".toList "site/a.txt".toList] ∧
      (exFinished.collected.map Prod.fst).Perm (List.range exRunConfig.jobs.length) :=
  have h := (one_call_per_job exRunConfig exSchedule exFinished (by decide)).2 (Or.inr rfl)
  ⟨(h.1 1 ⟨"/drone/src/public/a.txt".toList, "site/a.txt".toList, "upload".toList⟩
      (by decide)).1 rfl, h.2⟩

end S3Sync
